import Mathlib

/-!
# GCache

A verification development for the GCache repository: the byte-bounded LRU
engine (`lru/lru.go`), the consistent-hash ring
(`gcache/consistenthash/consistenthash.go`), the single-flight coordinator
(`singleflight/singleflight.go`) and the group facade (`gcache.go`).

Conventions of the embedding.

* Go `int`, `int64` are modelled by `Int`.  Every quantity that is added up is
  the byte size of a live string or value, so the sums stay far below `2^63`
  and the machine arithmetic coincides with the arithmetic of `Int`.  The
  `uint32` result of a hash function is modelled by a `Nat` reduced modulo
  `2^32` where it is converted to `int`.
* Go strings and byte slices are byte sequences; `len` of a string is
  `String.utf8ByteSize`.
* A loop that may fail to terminate takes a fuel argument and returns `none`
  when the fuel is used up.
-/

namespace lru

/-- Value is the interface of the values held by the cache: `Len` reports the
number of bytes a value occupies (Go `int`). -/
class Value (V : Type) where
  Len : V → Int

/-- The entry type of `lru.go`: what a list node holds. -/
structure entry (V : Type) where
  key : String
  value : V

/-- A node of `container/list`.  The field `id` stands for the identity of the
`*list.Element` pointer; `Value` is the `*entry` stored in the node. -/
structure Element (V : Type) where
  id : Nat
  Value : entry V

/-- The Cache struct of `lru.go`.  `ll` is the recency list, front first.
`cache` maps a key to the identity of its node.  `OnEvicted` tells whether a
callback is installed; `evictions` records the calls made to it, oldest
first.  `nextId` is the identity the next allocated node receives. -/
structure Cache (V : Type) where
  maxBytes : Int
  nbytes : Int
  ll : List (Element V)
  cache : String → Option Nat
  OnEvicted : Bool
  evictions : List (String × V)
  nextId : Nat

variable {V : Type}

/-- Bytes one entry contributes: `int64(len(key)) + int64(value.Len())`. -/
def entryBytes [Value V] (kv : entry V) : Int :=
  (kv.key.utf8ByteSize : Int) + Value.Len kv.value

/-- Sum of `entryBytes` over a list of nodes. -/
def totalBytes [Value V] (l : List (Element V)) : Int :=
  (l.map (fun e => entryBytes e.Value)).sum

/-- The method `list.MoveToFront`: the node `ele` is unlinked and linked in
again at the front; a node that is not in the list leaves it unchanged. -/
def MoveToFront (l : List (Element V)) (ele : Nat) : List (Element V) :=
  match l.find? (fun e => e.id == ele) with
  | some e => e :: l.eraseP (fun e => e.id == ele)
  | none => l

/-- The method `list.Remove`: the node `ele` is unlinked. -/
def Remove (l : List (Element V)) (ele : Nat) : List (Element V) :=
  l.eraseP (fun e => e.id == ele)

/-- The assignment `kv.value = value` through the `*entry` of node `ele`. -/
def setValue (l : List (Element V)) (ele : Nat) (value : V) : List (Element V) :=
  l.map (fun e => if e.id == ele then { e with Value := { e.Value with value := value } } else e)

/-- The lookup `ele, ok := c.cache[key]` followed by the dereference of `ele`.
A mapped identity always names a node of the list (see `Inv`); detached nodes
are not represented, and an identity without a node counts as a miss. -/
def lookup (c : Cache V) (key : String) : Option (Element V) :=
  match c.cache key with
  | some ele => c.ll.find? (fun e => e.id == ele)
  | none => none

/-- New is the constructor of Cache. -/
def New (maxBytes : Int) (onEvicted : Bool) : Cache V :=
  { maxBytes := maxBytes, nbytes := 0, ll := [], cache := fun _ => none,
    OnEvicted := onEvicted, evictions := [], nextId := 0 }

/-- RemoveOldest removes the node at the back of the list, if there is one. -/
def RemoveOldest [Value V] (c : Cache V) : Cache V :=
  match c.ll.getLast? with
  | some ele =>
    let kv := ele.Value
    { c with
      ll := Remove c.ll ele.id
      cache := fun k => if k = kv.key then none else c.cache k
      nbytes := c.nbytes - ((kv.key.utf8ByteSize : Int) + Value.Len kv.value)
      evictions := if c.OnEvicted then c.evictions ++ [(kv.key, kv.value)] else c.evictions }
  | none => c

/-- The first statement of `Add`: the `if`/`else` that updates or inserts. -/
def store [Value V] (c : Cache V) (key : String) (value : V) : Cache V :=
  match lookup c key with
  | some ele =>
    let kv := ele.Value
    { c with
      ll := setValue (MoveToFront c.ll ele.id) ele.id value
      nbytes := c.nbytes + (Value.Len value - Value.Len kv.value) }
  | none =>
    { c with
      ll := { id := c.nextId, Value := { key := key, value := value } } :: c.ll
      cache := fun k => if k = key then some c.nextId else c.cache k
      nbytes := c.nbytes + ((key.utf8ByteSize : Int) + Value.Len value)
      nextId := c.nextId + 1 }

/-- The loop `for c.maxBytes != 0 && c.maxBytes < c.nbytes { c.RemoveOldest() }`
of `Add`.  Each unit of fuel pays for one evaluation of the loop condition. -/
def evictLoop [Value V] : Nat → Cache V → Option (Cache V)
  | 0, _ => none
  | fuel + 1, c =>
    if c.maxBytes ≠ 0 ∧ c.maxBytes < c.nbytes then evictLoop fuel (RemoveOldest c)
    else some c

/-- Add adds a value to the cache. -/
def Add [Value V] (fuel : Nat) (c : Cache V) (key : String) (value : V) : Option (Cache V) :=
  evictLoop fuel (store c key value)

/-- Get looks up a key: `(value, ok)` is `some value` on a hit and `none`
on a miss; the second component is the cache after the call. -/
def Get (c : Cache V) (key : String) : Option V × Cache V :=
  match lookup c key with
  | some ele => (some ele.Value.value, { c with ll := MoveToFront c.ll ele.id })
  | none => (none, c)

/-- Len is the number of entries of the cache. -/
def Len (c : Cache V) : Nat :=
  c.ll.length

/-- The entries of the recency list, youngest first, as key/value pairs. -/
def entries (c : Cache V) : List (String × V) :=
  c.ll.map (fun e => (e.Value.key, e.Value.value))

/-- Strings as cache values: `Len` is the byte length. -/
instance : Value String where
  Len s := (s.utf8ByteSize : Int)

end lru

namespace lru
variable {V : Type}

/-- The identity and key of every node of a list, in list order. -/
def tags (l : List (Element V)) : List (Nat × String) :=
  l.map (fun e => (e.id, e.Value.key))

/-- The representation invariant of the cache: node identities and keys are
not repeated, the map holds exactly the pairs key/node of the list, every
identity in use is below `nextId`, and `nbytes` is the sum of the entry sizes. -/
structure Inv [Value V] (c : Cache V) : Prop where
  ids_nodup : ((tags c.ll).map Prod.fst).Nodup
  keys_nodup : ((tags c.ll).map Prod.snd).Nodup
  index : ∀ k i, c.cache k = some i ↔ (i, k) ∈ tags c.ll
  fresh : ∀ p ∈ tags c.ll, p.1 < c.nextId
  bytes : c.nbytes = totalBytes c.ll

/-- The states a cache created by `New C _` can be in: any sequence of calls
of `Add` (that return), `Get` and `RemoveOldest`. -/
inductive Reachable [Value V] (C : Int) : Cache V → Prop
  | new (onEvicted : Bool) : Reachable C (New C onEvicted)
  | add {c c1 : Cache V} (fuel : Nat) (key : String) (value : V) :
      Reachable C c → Add fuel c key value = some c1 → Reachable C c1
  | get {c : Cache V} (key : String) : Reachable C c → Reachable C (Get c key).2
  | removeOldest {c : Cache V} : Reachable C c → Reachable C (RemoveOldest c)

/-- Bytes of a key/value pair: `len(key) + value.Len()`. -/
def pairBytes [Value V] (p : String × V) : Int :=
  (p.1.utf8ByteSize : Int) + Value.Len p.2

/-- Total of `pairBytes` over a list of pairs. -/
def listBytes [Value V] (l : List (String × V)) : Int :=
  (l.map pairBytes).sum

/-- The recency list an access to `key` with `value` produces before any
eviction: the pair in front, then the other entries in their old order. -/
def touched (l : List (String × V)) (key : String) (value : V) : List (String × V) :=
  (key, value) :: l.filter (fun p => p.1 ≠ key)

end lru

namespace consistenthash

/-- Hash is the type `func(data []byte) uint32`.  The result is a `Nat`; it is
reduced modulo `2^32` where the ring converts it to `int`. -/
abbrev Hash := String → Nat

/-- One byte of the table-free CRC-32 computation (reflected polynomial
`0xEDB88320`). -/
def crc32Byte (crc : Nat) (b : Nat) : Nat :=
  (List.range 8).foldl (fun c _ => if c % 2 = 1 then (c / 2) ^^^ 0xEDB88320 else c / 2)
    (crc ^^^ b)

/-- The function `crc32.ChecksumIEEE` of the Go library, the default hash. -/
def ChecksumIEEE : Hash := fun data =>
  (data.toUTF8.toList.foldl (fun c b => crc32Byte c b.toNat) 0xFFFFFFFF) ^^^ 0xFFFFFFFF

/-- The Map struct: the ring.  `keys` is the array of virtual-node hashes and
`hashMap` maps a virtual-node hash to its peer. -/
structure Map where
  hash : Hash
  replicas : Int
  keys : List Int
  hashMap : Int → Option String

/-- New creates a Map; a nil `fn` selects `crc32.ChecksumIEEE`. -/
def New (replicas : Int) (fn : Option Hash) : Map :=
  { replicas := replicas
    hash := fn.getD ChecksumIEEE
    keys := []
    hashMap := fun _ => none }

/-- The conversion `int(m.hash(data))` of a `uint32` hash value. -/
def hashInt (hash : Hash) (data : String) : Int :=
  ((hash data % 4294967296 : Nat) : Int)

/-- The function `sort.Ints`: the ascending rearrangement of the slice.  For
integers that rearrangement is unique, so the sorting algorithm is immaterial. -/
def sortInts (l : List Int) : List Int :=
  l.insertionSort (fun a b => a ≤ b)

/-- The loop of `sort.Search`: `for i < j` with the midpoint
`h := int(uint(i+j) >> 1)`.  Every round shrinks `j - i`, so the recursion is
on a bound for the number of rounds (any bound of at least `j - i` gives the
same value, see `searchLoop_fuel`). -/
def searchLoop (f : Nat → Bool) : Nat → Nat → Nat → Nat
  | 0, i, _ => i
  | fuel + 1, i, j =>
    if i < j then
      let h := (i + j) / 2
      if !f h then searchLoop f fuel (h + 1) j else searchLoop f fuel i h
    else i

/-- The function `sort.Search(n, f)`. -/
def Search (n : Nat) (f : Nat → Bool) : Nat :=
  searchLoop f n 0 n

/-- The body of the inner loop of `Add`: one virtual node of `key`. -/
def addReplica (m : Map) (key : String) (i : Nat) : Map :=
  let hash := hashInt m.hash (toString i ++ key)
  { m with
    keys := m.keys ++ [hash]
    hashMap := fun h => if h = hash then some key else m.hashMap h }

/-- The inner loop of `Add`: `for i := 0; i < m.replicas; i++`. -/
def addKey (m : Map) (key : String) : Map :=
  (List.range m.replicas.toNat).foldl (fun m i => addReplica m key i) m

/-- Add adds some peers to the ring. -/
def Add (m : Map) (keys : List String) : Map :=
  let m1 := keys.foldl addKey m
  { m1 with keys := sortInts m1.keys }

/-- Get returns the peer that owns `key`. -/
def Get (m : Map) (key : String) : String :=
  if m.keys.length = 0 then ""
  else
    let hash := hashInt m.hash key
    let idx := Search m.keys.length (fun i => decide (m.keys.getD i 0 ≥ hash))
    (m.hashMap (m.keys.getD (idx % m.keys.length) 0)).getD ""

/-- A ring built from `New replicas fn` by a sequence of calls of `Add`, one
call per element of `calls`. -/
def build (replicas : Int) (fn : Option Hash) (calls : List (List String)) : Map :=
  calls.foldl Add (New replicas fn)

/-- The virtual-node hashes `Add` inserts for one peer. -/
def vnodes (hash : Hash) (replicas : Int) (peer : String) : List Int :=
  (List.range replicas.toNat).map (fun i => hashInt hash (toString i ++ peer))

/-- The hash function of `TestHashing`: the decimal value of the key.  A key
that is not a string of digits makes `strconv.Atoi` fail, which the test maps
to 0 (signed and out-of-range numerals are not modelled; the test has none). -/
def atoiHash : Hash := fun key =>
  if key.data ≠ [] ∧ key.data.all Char.isDigit = true then
    key.data.foldl (fun n c => 10 * n + (c.toNat - 48)) 0
  else 0

end consistenthash

namespace consistenthash

/-- The entry of the sorted array that `Get` looks up in `hashMap`:
`m.keys[idx % len(m.keys)]` for the index `idx` found by `sort.Search`. -/
def selected (keys : List Int) (h : Int) : Int :=
  keys.getD (Search keys.length (fun i => decide (keys.getD i 0 ≥ h)) % keys.length) 0

/-- No two distinct peers of the list share a virtual-node hash. -/
def CollisionFree (hash : Hash) (replicas : Int) (peers : List String) : Prop :=
  ∀ p ∈ peers, ∀ q ∈ peers, ∀ x ∈ vnodes hash replicas p, x ∈ vnodes hash replicas q → p = q

instance (hash : Hash) (replicas : Int) (peers : List String) :
    Decidable (CollisionFree hash replicas peers) := by
  unfold CollisionFree
  infer_instance

/-- What a ring holds after the peers `S` were added with hash function `hash`
and `r` replicas: the array is a rearrangement of their virtual-node hashes,
and the map sends each of those hashes to a peer of `S` that has it. -/
structure Holds (hash : Hash) (r : Int) (S : List String) (m : Map) : Prop where
  hash_eq : m.hash = hash
  replicas_eq : m.replicas = r
  keys_perm : m.keys.Perm (S.flatMap (vnodes hash r))
  sound : ∀ x p, m.hashMap x = some p → p ∈ S ∧ x ∈ vnodes hash r p
  complete : ∀ p ∈ S, ∀ x ∈ vnodes hash r p, ∃ q ∈ S, x ∈ vnodes hash r q ∧ m.hashMap x = some q

end consistenthash

namespace singleflight

/-- The call struct: an in-flight or completed `Do` call.  `wg` is the counter
of the `sync.WaitGroup`; `val` is `none` for the nil interface and `err` is
`none` for the nil error. -/
structure call (α : Type) where
  wg : Nat
  val : Option α
  err : Option String

/-- The Group struct of `singleflight.go`; `m` is `none` until the first `Do`
allocates the map. -/
structure Group (α : Type) where
  m : Option (String → Option (call α))

/-- Do runs `fn` for `key`, as seen by a caller that no other goroutine
interleaves with.  `fn` acts on the state `σ` of its closure and returns
`none` when it does not return.  A record found for `key` makes the caller
wait on its `WaitGroup`: with counter 0 the wait is over and the record's
result is returned, otherwise the caller stays blocked (`none`). -/
def Do {α σ : Type} (g : Group α) (key : String)
    (fn : σ → Option ((Option α × Option String) × σ)) (s : σ) :
    Option ((Option α × Option String) × Group α × σ) :=
  let m := g.m.getD (fun _ => none)
  match m key with
  | some c => if c.wg = 0 then some ((c.val, c.err), { m := some m }, s) else none
  | none =>
    let c : call α := { wg := 1, val := none, err := none }
    let m1 : String → Option (call α) := fun k => if k = key then some c else m k
    match fn s with
    | none => none
    | some ((val, err), s1) =>
      let c1 : call α := { wg := 0, val := val, err := err }
      let m2 : String → Option (call α) := fun k => if k = key then some c1 else m1 k
      let m3 : String → Option (call α) := fun k => if k = key then none else m2 k
      some ((c1.val, c1.err), { m := some m3 }, s1)

end singleflight

namespace gcache

/-- The contents of a byte slice. -/
abbrev Bytes := List UInt8

/-- ByteView holds an immutable view of bytes. -/
structure ByteView where
  b : Bytes
deriving DecidableEq

/-- Len returns the length of the view. -/
def ByteView.Len (v : ByteView) : Int :=
  (v.b.length : Int)

/-- The function `cloneBytes`: a fresh slice with the same contents. -/
def cloneBytes (b : Bytes) : Bytes :=
  b

/-- ByteSlice returns a copy of the data. -/
def ByteView.ByteSlice (v : ByteView) : Bytes :=
  cloneBytes v.b

instance : lru.Value ByteView where
  Len v := v.Len

/-- Modelled from the spec: the messages `Request` and `Response` of the
package `gcachepb`, which is not among the sources (spec, protobuf schema:
`Request{group: string, key: string}`, `Response{value: bytes}`). -/
structure Request where
  Group : String
  Key : String

/-- PeerGetter is the interface of a peer: `Get(in, out)` gives the bytes it
left in `out.Value`, or its error. -/
abbrev PeerGetter := Request → Except String Bytes

/-- PeerPicker is the interface that locates the peer owning a key:
`PickPeer(key)` is `some peer` for `(peer, true)` and `none` for `ok = false`. -/
abbrev PeerPicker := String → Option PeerGetter

/-- Getter loads the data of a key from the source: the bytes or the error. -/
abbrev Getter := String → Except String Bytes

/-- Modelled from the spec: the concurrent cache wrapper `cache` used by
`Group`; its source file is not among the sources.  Spec 4.4: a thin shim
around the LRU engine that holds a mutex, lazily allocates the LRU on first
`add`, and exposes `add(key, ByteView)` and `get(key) -> (ByteView, hit?)`.
The field `cacheBytes` is the one `NewGroup` sets; the mutex has no content
for a single caller. -/
structure cache where
  lru : Option (lru.Cache ByteView)
  cacheBytes : Int

/-- Modelled from the spec: `add` of the cache wrapper, which allocates the
LRU with capacity `cacheBytes` (and no eviction callback) when there is none
yet and adds the entry to it. -/
def cache.add (fuel : Nat) (c : cache) (key : String) (value : ByteView) : Option cache :=
  match lru.Add fuel (c.lru.getD (lru.New c.cacheBytes false)) key value with
  | some l => some { c with lru := some l }
  | none => none

/-- Modelled from the spec: `get` of the cache wrapper, a miss while no LRU is
allocated and the lookup of the LRU engine otherwise. -/
def cache.get (c : cache) (key : String) : Option ByteView × cache :=
  match c.lru with
  | none => (none, c)
  | some l => ((lru.Get l key).1, { c with lru := some (lru.Get l key).2 })

/-- What a call does to the outside: a call of the loader `g.getter.Get(key)`,
or a call `peer.Get` with the request it carries. -/
inductive Event where
  | loader (key : String)
  | peer (group key : String)
deriving DecidableEq

/-- The Group struct: a cache namespace with its loader. -/
structure Group where
  name : String
  getter : Getter
  mainCache : cache
  peers : Option PeerPicker
  loader : singleflight.Group ByteView

/-- NewGroup creates a Group.  (The nil getter, which panics, is excluded by
the type; the registry `groups` is not modelled.) -/
def NewGroup (name : String) (cacheBytes : Int) (getter : Getter) : Group :=
  { name := name
    getter := getter
    mainCache := { lru := none, cacheBytes := cacheBytes }
    peers := none
    loader := { m := none } }

/-- RegisterPeers installs the peer picker; a second call panics (`none`). -/
def Group.RegisterPeers (g : Group) (peers : PeerPicker) : Option Group :=
  match g.peers with
  | some _ => none
  | none => some { g with peers := some peers }

/-- The method `populateCache`. -/
def Group.populateCache (fuel : Nat) (g : Group) (key : String) (value : ByteView) :
    Option Group :=
  match g.mainCache.add fuel key value with
  | some c => some { g with mainCache := c }
  | none => none

/-- The method `getLocally`: call the loader and populate the cache.  The
result is `(ByteView, error)`, the group and the events so far. -/
def Group.getLocally (fuel : Nat) (g : Group) (t : List Event) (key : String) :
    Option ((ByteView × Option String) × Group × List Event) :=
  match g.getter key with
  | .error err => some (({ b := [] }, some err), g, t ++ [Event.loader key])
  | .ok bytes =>
    let value : ByteView := { b := cloneBytes bytes }
    match g.populateCache fuel key value with
    | some g1 => some ((value, none), g1, t ++ [Event.loader key])
    | none => none

/-- The method `getFromPeer`. -/
def Group.getFromPeer (g : Group) (t : List Event) (peer : PeerGetter) (key : String) :
    (ByteView × Option String) × List Event :=
  let req : Request := { Group := g.name, Key := key }
  match peer req with
  | .error err => (({ b := [] }, some err), t ++ [Event.peer req.Group req.Key])
  | .ok value => (({ b := value }, none), t ++ [Event.peer req.Group req.Key])

/-- The result of `getLocally` as the closure of `load` returns it: the
`ByteView` as an interface value, and the captured variable `value` kept. -/
def Group.viaLoader (fuel : Nat) (g : Group) (t : List Event) (value : ByteView)
    (key : String) :
    Option ((Option ByteView × Option String) × (Group × List Event × ByteView)) :=
  match g.getLocally fuel t key with
  | some ((v, err), g1, t1) => some ((some v, err), (g1, t1, value))
  | none => none

/-- The closure that `load` hands to `loader.Do`.  Its state is the group, the
events and the named result `value` of `load`, which the closure assigns with
the result of `getFromPeer`. -/
def Group.loadFn (fuel : Nat) (key : String) :
    (Group × List Event × ByteView) →
      Option ((Option ByteView × Option String) × (Group × List Event × ByteView))
  | (g, t, value) =>
    match g.peers with
    | some peers =>
      match peers key with
      | some peer =>
        match g.getFromPeer t peer key with
        | ((v, none), t1) => some ((some v, none), (g, t1, v))
        | ((v, some _), t1) => g.viaLoader fuel t1 v key
      | none => g.viaLoader fuel t value key
    | none => g.viaLoader fuel t value key

/-- The method `load`.  After `Do` a nil error returns `viewi.(ByteView)`
(the assertion panics on a nil interface: `none`); an error returns the named
result `value` as the closure left it. -/
def Group.load (fuel : Nat) (g : Group) (t : List Event) (key : String) :
    Option ((ByteView × Option String) × Group × List Event) :=
  match singleflight.Do g.loader key (Group.loadFn fuel key) (g, t, { b := [] }) with
  | none => none
  | some ((viewi, none), loader, (g1, t1, _)) =>
    match viewi with
    | some view => some ((view, none), { g1 with loader := loader }, t1)
    | none => none
  | some ((_, some err), loader, (g1, t1, value)) =>
    some ((value, some err), { g1 with loader := loader }, t1)

/-- Get returns the value of a key.  The result is `(ByteView, error)`, the
group after the call and the events so far; `none` means that the call does
not return. -/
def Group.Get (fuel : Nat) (g : Group) (t : List Event) (key : String) :
    Option ((ByteView × Option String) × Group × List Event) :=
  if key = "" then some (({ b := [] }, some "key is required"), g, t)
  else
    match g.mainCache.get key with
    | (some v, c) => some ((v, none), { g with mainCache := c }, t)
    | (none, c) => Group.load fuel { g with mainCache := c } t key

/-- The number of loader calls among the events. -/
def loaderCalls (t : List Event) : Nat :=
  (t.filter (fun e => match e with | Event.loader _ => true | Event.peer _ _ => false)).length

/-- The number of peer calls among the events. -/
def peerCalls (t : List Event) : Nat :=
  (t.filter (fun e => match e with | Event.loader _ => false | Event.peer _ _ => true)).length

/-- The groups a program can hold: made by `NewGroup`, with a peer picker
installed at most once, after any sequence of calls of `Get` that returned. -/
inductive Group.Reachable : Group → Prop
  | new (name : String) (cacheBytes : Int) (getter : Getter) :
      Group.Reachable (NewGroup name cacheBytes getter)
  | registerPeers {g g1 : Group} (peers : PeerPicker) :
      Group.Reachable g → g.RegisterPeers peers = some g1 → Group.Reachable g1
  | get {g g1 : Group} (fuel : Nat) (t t1 : List Event) (key : String)
      (r : ByteView × Option String) :
      Group.Reachable g → g.Get fuel t key = some (r, g1, t1) → Group.Reachable g1

/-- What holds of every reachable group: an allocated LRU satisfies the
invariant of the engine and has the capacity `cacheBytes`, and no call is in
flight in the single-flight coordinator. -/
structure Group.WF (g : Group) : Prop where
  lru_inv : ∀ l, g.mainCache.lru = some l → lru.Inv l ∧ l.maxBytes = g.mainCache.cacheBytes
  idle : ∀ m, g.loader.m = some m → ∀ k, m k = none

end gcache

namespace singleflight

/-- The coordinator after a call of `Do` for `key` has run to its end: the
map is allocated and holds no record for `key`. -/
def Group.after {α : Type} (g : Group α) (key : String) : Group α :=
  { m := some (fun k => if k = key then none else (g.m.getD (fun _ => none)) k) }

end singleflight

namespace gcache

/-- The number of entries of the wrapped LRU (0 while none is allocated). -/
def cache.len (c : cache) : Nat :=
  match c.lru with
  | some l => lru.Len l
  | none => 0

/-- No peer serves `key`: no picker is installed, or the picker finds no
peer, or the peer's `Get` fails.  `tp` is the event list after the attempt. -/
def Unserved (g : Group) (key : String) (t tp : List Event) : Prop :=
  (g.peers = none ∧ tp = t) ∨
  (∃ pk, g.peers = some pk ∧ pk key = none ∧ tp = t) ∨
  (∃ pk peer err, g.peers = some pk ∧ pk key = some peer ∧
    peer { Group := g.name, Key := key } = .error err ∧ tp = t ++ [Event.peer g.name key])

end gcache

namespace singleflight

/-- A number of calls `Do(key, fn)` made one after the other, each starting
when the one before has returned; the results are listed in call order. -/
def DoSeq {α σ : Type} (key : String) (fn : σ → Option ((Option α × Option String) × σ)) :
    Nat → Group α → σ → Option (List (Option α × Option String) × Group α × σ)
  | 0, g, s => some ([], g, s)
  | n + 1, g, s =>
    match Do g key fn s with
    | none => none
    | some (r, g1, s1) =>
      match DoSeq key fn n g1 s1 with
      | none => none
      | some (rs, g2, s2) => some (r :: rs, g2, s2)

/-- The function `fn` run a number of times in a row on its closure state;
the results are listed in order. -/
def runSeq {α σ : Type} (fn : σ → Option ((Option α × Option String) × σ)) :
    Nat → σ → Option (List (Option α × Option String) × σ)
  | 0, s => some ([], s)
  | n + 1, s =>
    match fn s with
    | none => none
    | some (r, s1) =>
      match runSeq fn n s1 with
      | none => none
      | some (rs, s2) => some (r :: rs, s2)

end singleflight

namespace gcache

/-- The constant `defaultBasePath`. -/
def defaultBasePath : String := "/_gcache/"

/-- The constant `defaultReplicas`. -/
def defaultReplicas : Int := 50

/-- The httpGetter struct: the client side of one peer. -/
structure httpGetter where
  baseURL : String
deriving DecidableEq

/-- HTTPPool implements PeerPicker for a pool of HTTP peers.  `peers` is
`none` for the nil ring before the first `Set`; `httpGetters` is the map from
peer to getter, where `none` is the nil `*httpGetter` a missing key reads as. -/
structure HTTPPool where
  self : String
  basePath : String
  peers : Option consistenthash.Map
  httpGetters : String → Option httpGetter

/-- NewHTTPPool initialises a pool of peers. -/
def NewHTTPPool (self : String) : HTTPPool :=
  { self := self, basePath := defaultBasePath, peers := none, httpGetters := fun _ => none }

/-- Set replaces the pool's list of peers: a fresh ring with the default
replicas and hash, and a fresh table with one getter per peer. -/
def HTTPPool.Set (p : HTTPPool) (peers : List String) : HTTPPool :=
  { p with
    peers := some (consistenthash.Add (consistenthash.New defaultReplicas none) peers)
    httpGetters :=
      peers.foldl
        (fun m peer => fun k => if k = peer then some { baseURL := peer ++ p.basePath } else m k)
        (fun _ => none) }

/-- PickPeer picks a peer according to the key: `(getter, ok)`.  The result
is `none` when the ring is nil, where `p.peers.Get` panics. -/
def HTTPPool.PickPeer (p : HTTPPool) (key : String) : Option (Option httpGetter × Bool) :=
  match p.peers with
  | none => none
  | some ring =>
    let peer := consistenthash.Get ring key
    if peer ≠ "" ∧ peer ≠ p.self then some (p.httpGetters peer, true) else some (none, false)

end gcache

namespace lru

/-- The cache of the eviction scenario: capacity 8 and no callback, after
`Add("k1","v1")` and `Add("k2","v2")`. -/
def scenarioCache : Cache String :=
  ((Add 2 (New 8 false) "k1" "v1").bind (fun c => Add 3 c "k2" "v2")).getD (New 8 false)

end lru

namespace gcache

/-- A loader for the scenarios: every key has the two bytes of "v1". -/
def scenarioGetter : Getter := fun _ => .ok [118, 49]

/-- A peer whose `Get` always fails. -/
def downPeer : PeerGetter := fun _ => .error "peer down"

/-- A peer whose `Get` always answers with one byte. -/
def upPeer : PeerGetter := fun _ => .ok [112]

/-- The group "scores" with the scenario loader and no peer picker. -/
def localGroup (cacheBytes : Int) : Group :=
  NewGroup "scores" cacheBytes scenarioGetter

/-- The group "scores" with a picker that returns `peer` for every key. -/
def peerGroup (cacheBytes : Int) (peer : PeerGetter) : Group :=
  ((localGroup cacheBytes).RegisterPeers (fun _ => some peer)).getD (localGroup cacheBytes)

/-- The group `localGroup 8` after its first `Get("k1")`. -/
def loadedGroup : Group :=
  (((localGroup 8).Get 2 [] "k1").map (fun r => r.2.1)).getD (localGroup 8)

end gcache

namespace lru

/-- A cache of capacity 8 with an eviction callback, after `Add("k1","v1")`. -/
def callbackCache : Cache String :=
  (Add 2 (New 8 true) "k1" "v1").getD (New 8 true)

end lru

namespace gcache

/-- A loader that fails for every key. -/
def failingGetter : Getter := fun _ => .error "no such key"

/-- The group "scores" with the failing loader and no peer picker. -/
def failingGroup (cacheBytes : Int) : Group :=
  NewGroup "scores" cacheBytes failingGetter

end gcache

namespace singleflight

/-- A function for `Do` that counts its invocations in its closure state and
returns the count as its value. -/
def countingFn : Nat → Option ((Option Nat × Option String) × Nat) :=
  fun n => some ((some (n + 1), none), n + 1)

end singleflight

namespace lru
variable {V : Type}

theorem find_split {α : Type} (p : α → Bool) (l1 l2 : List α) (e : α)
    (h1 : ∀ x ∈ l1, p x = false) (he : p e = true) :
    (l1 ++ e :: l2).find? p = some e := by
  induction l1 with
  | nil => simp [he]
  | cons a t ih =>
    have ha : p a = false := h1 a (List.mem_cons_self _ _)
    rw [List.cons_append, List.find?_cons_of_neg _ (by simp [ha])]
    exact ih (fun x hx => h1 x (List.mem_cons_of_mem _ hx))

theorem eraseP_split {α : Type} (p : α → Bool) (l1 l2 : List α) (e : α)
    (h1 : ∀ x ∈ l1, p x = false) (he : p e = true) :
    (l1 ++ e :: l2).eraseP p = l1 ++ l2 := by
  induction l1 with
  | nil => simp [he]
  | cons a t ih =>
    have ha : p a = false := h1 a (List.mem_cons_self _ _)
    simp [List.eraseP_cons, ha]
    exact ih (fun x hx => h1 x (List.mem_cons_of_mem _ hx))

/-- Splitting a list with distinct identities around one of its nodes. -/
theorem split_at_node (l : List (Element V)) (e : Element V)
    (hn : ((tags l).map Prod.fst).Nodup) (he : e ∈ l) :
    ∃ l1 l2, l = l1 ++ e :: l2 ∧ (∀ x ∈ l1, (x.id == e.id) = false) ∧
      (∀ x ∈ l2, (x.id == e.id) = false) := by
  obtain ⟨l1, l2, rfl⟩ := List.append_of_mem he
  have hn2 : (List.map (fun x : Element V => x.id) (l1 ++ e :: l2)).Nodup := by
    simpa [tags, List.map_map, Function.comp_def] using hn
  simp only [List.map_append, List.map_cons] at hn2
  refine ⟨l1, l2, rfl, ?_, ?_⟩
  · intro x hx
    have := (List.nodup_append.1 hn2).2.2
    simp only [beq_eq_false_iff_ne, ne_eq]
    intro hxe
    exact this (List.mem_map_of_mem _ hx) (by rw [hxe]; exact List.mem_cons_self _ _)
  · intro x hx
    have h2 := (List.nodup_append.1 hn2).2.1
    have h3 := (List.nodup_cons.1 h2).1
    simp only [beq_eq_false_iff_ne, ne_eq]
    intro hxe
    exact h3 (by rw [← hxe]; exact List.mem_map_of_mem _ hx)

theorem MoveToFront_split (l1 l2 : List (Element V)) (e : Element V)
    (h1 : ∀ x ∈ l1, (x.id == e.id) = false) :
    MoveToFront (l1 ++ e :: l2) e.id = e :: (l1 ++ l2) := by
  unfold MoveToFront
  rw [find_split _ l1 l2 e h1 (by simp), eraseP_split _ l1 l2 e h1 (by simp)]

theorem setValue_other (l : List (Element V)) (i : Nat) (v : V)
    (h : ∀ x ∈ l, (x.id == i) = false) : setValue l i v = l := by
  unfold setValue
  conv_rhs => rw [← List.map_id l]
  apply List.map_congr_left
  intro x hx
  simp [h x hx]

theorem tags_append (l1 l2 : List (Element V)) : tags (l1 ++ l2) = tags l1 ++ tags l2 := by
  simp [tags]

theorem totalBytes_append [Value V] (l1 l2 : List (Element V)) :
    totalBytes (l1 ++ l2) = totalBytes l1 + totalBytes l2 := by
  simp [totalBytes]

theorem totalBytes_cons [Value V] (e : Element V) (l : List (Element V)) :
    totalBytes (e :: l) = entryBytes e.Value + totalBytes l := by
  simp [totalBytes]

end lru

namespace lru
variable {V : Type}

theorem ids_injective {l : List (Element V)} (hn : ((tags l).map Prod.fst).Nodup)
    {x y : Element V} (hx : x ∈ l) (hy : y ∈ l) (hxy : x.id = y.id) : x = y := by
  have hn2 : (List.map (fun x : Element V => x.id) l).Nodup := by
    simpa [tags, List.map_map, Function.comp_def] using hn
  exact List.inj_on_of_nodup_map hn2 hx hy hxy

theorem lookup_some [Value V] {c : Cache V} (h : Inv c) {key : String} {e : Element V}
    (hl : lookup c key = some e) :
    e ∈ c.ll ∧ e.Value.key = key ∧ c.cache key = some e.id := by
  unfold lookup at hl
  cases hc : c.cache key with
  | none => simp [hc] at hl
  | some i =>
    simp only [hc] at hl
    have hmem := List.mem_of_find?_eq_some hl
    have hid : e.id = i := by simpa using List.find?_some hl
    have ht := (h.index key i).1 hc
    obtain ⟨e1, he1, heq⟩ := List.mem_map.1 ht
    have h1 : e1.id = i := congrArg Prod.fst heq
    have h2 : e1.Value.key = key := congrArg Prod.snd heq
    have : e = e1 := ids_injective h.ids_nodup hmem he1 (by rw [hid, h1])
    subst this
    exact ⟨hmem, h2, by rw [hid]⟩

theorem lookup_none [Value V] {c : Cache V} (h : Inv c) {key : String}
    (hl : lookup c key = none) : ∀ e ∈ c.ll, e.Value.key ≠ key := by
  intro e he hk
  have hc : c.cache key = some e.id :=
    (h.index key e.id).2 (List.mem_map.2 ⟨e, he, by rw [hk]⟩)
  unfold lookup at hl
  simp only [hc] at hl
  rw [List.find?_eq_none] at hl
  exact hl e he (by simp)

/-- Shape of the list after the update branch of `Add`. -/
theorem store_hit [Value V] {c : Cache V} (h : Inv c) {key : String} {e : Element V} (value : V)
    (hl : lookup c key = some e) :
    ∃ l1 l2, c.ll = l1 ++ e :: l2 ∧
      (∀ x ∈ l1, (x.id == e.id) = false) ∧ (∀ x ∈ l2, (x.id == e.id) = false) ∧
      store c key value =
        { c with
          ll := { id := e.id, Value := { key := key, value := value } } :: (l1 ++ l2)
          nbytes := c.nbytes + (Value.Len value - Value.Len e.Value.value) } := by
  obtain ⟨hmem, hk, _⟩ := lookup_some h hl
  obtain ⟨l1, l2, hsplit, h1, h2⟩ := split_at_node c.ll e h.ids_nodup hmem
  refine ⟨l1, l2, hsplit, h1, h2, ?_⟩
  have hrest : ∀ x ∈ l1 ++ l2, (x.id == e.id) = false := by
    intro x hx
    rcases List.mem_append.1 hx with hx | hx
    · exact h1 x hx
    · exact h2 x hx
  unfold store
  rw [hl]
  simp only
  rw [hsplit, MoveToFront_split l1 l2 e h1]
  have : setValue (e :: (l1 ++ l2)) e.id value =
      { id := e.id, Value := { key := key, value := value } } :: (l1 ++ l2) := by
    have := setValue_other (l1 ++ l2) e.id value hrest
    unfold setValue at this ⊢
    rw [List.map_cons, this]
    simp [hk]
  rw [this]

theorem Inv_New [Value V] (maxBytes : Int) (onEvicted : Bool) :
    Inv (New maxBytes onEvicted : Cache V) := by
  constructor <;> simp [New, tags, totalBytes]

theorem Inv_store [Value V] {c : Cache V} (h : Inv c) (key : String) (value : V) :
    Inv (store c key value) := by
  cases hl : lookup c key with
  | some e =>
    obtain ⟨l1, l2, hsplit, h1, h2, hst⟩ := store_hit h value hl
    obtain ⟨_, hk, _⟩ := lookup_some h hl
    rw [hst]
    have hperm : (tags ({ id := e.id, Value := { key := key, value := value } } :: (l1 ++ l2))).Perm
        (tags c.ll) := by
      rw [hsplit]
      simp only [tags, List.map_cons, List.map_append, hk]
      exact (List.perm_middle).symm
    constructor
    · exact (hperm.map _).nodup_iff.2 h.ids_nodup
    · exact (hperm.map _).nodup_iff.2 h.keys_nodup
    · intro k i
      rw [hperm.mem_iff]
      exact h.index k i
    · intro p hp
      exact h.fresh p (hperm.mem_iff.1 hp)
    · simp only
      rw [h.bytes, hsplit]
      simp only [totalBytes_append, totalBytes_cons, entryBytes, hk]
      ring
  | none =>
    have hnk := lookup_none h hl
    have hst : store c key value =
        { c with
          ll := { id := c.nextId, Value := { key := key, value := value } } :: c.ll
          cache := fun k => if k = key then some c.nextId else c.cache k
          nbytes := c.nbytes + ((key.utf8ByteSize : Int) + Value.Len value)
          nextId := c.nextId + 1 } := by
      unfold store; rw [hl]
    rw [hst]
    have hkey : ∀ p ∈ tags c.ll, p.2 ≠ key := by
      intro p hp
      obtain ⟨e, he, rfl⟩ := List.mem_map.1 hp
      exact hnk e he
    constructor
    · simp only [tags, List.map_cons, List.nodup_cons]
      refine ⟨?_, h.ids_nodup⟩
      intro hmem
      obtain ⟨p, hp, hpe⟩ := List.mem_map.1 hmem
      have := h.fresh p hp
      omega
    · simp only [tags, List.map_cons, List.nodup_cons]
      refine ⟨?_, h.keys_nodup⟩
      intro hmem
      obtain ⟨p, hp, hpe⟩ := List.mem_map.1 hmem
      exact hkey p hp hpe
    · intro k i
      simp only [tags, List.map_cons, List.mem_cons, Prod.mk.injEq]
      by_cases hk : k = key
      · subst hk
        simp only [if_true, Option.some.injEq, and_true]
        constructor
        · intro hi; exact Or.inl hi.symm
        · rintro (hi | hi)
          · exact hi.symm
          · exact absurd rfl (hkey _ hi)
      · simp only [hk, if_false, and_false, false_or]
        exact h.index k i
    · intro p hp
      simp only [tags, List.map_cons, List.mem_cons] at hp
      rcases hp with rfl | hp
      · simp
      · have := h.fresh p hp
        simp only
        omega
    · simp only
      rw [h.bytes, totalBytes_cons]
      simp only [entryBytes]
      ring

end lru

namespace lru
variable {V : Type}

theorem RemoveOldest_nil [Value V] {c : Cache V} (h : c.ll = []) : RemoveOldest c = c := by
  unfold RemoveOldest
  rw [h]
  rfl

/-- Shape of the cache after `RemoveOldest` on a non-empty list. -/
theorem RemoveOldest_snoc [Value V] {c : Cache V} (h : Inv c) {init : List (Element V)}
    {last : Element V} (hll : c.ll = init ++ [last]) :
    RemoveOldest c =
      { c with
        ll := init
        cache := fun k => if k = last.Value.key then none else c.cache k
        nbytes := c.nbytes - ((last.Value.key.utf8ByteSize : Int) + Value.Len last.Value.value)
        evictions :=
          if c.OnEvicted then c.evictions ++ [(last.Value.key, last.Value.value)]
          else c.evictions } := by
  have hmem : last ∈ c.ll := by rw [hll]; simp
  have hinit : ∀ x ∈ init, (x.id == last.id) = false := by
    intro x hx
    have hxl : x ∈ c.ll := by rw [hll]; exact List.mem_append_left _ hx
    simp only [beq_eq_false_iff_ne, ne_eq]
    intro hid
    have hxe : x = last := ids_injective h.ids_nodup hxl hmem hid
    have hn := h.ids_nodup
    rw [hll] at hn
    subst hxe
    simp only [tags, List.map_append, List.map_cons, List.map_nil, List.map_map] at hn
    have := (List.nodup_append.1 hn).2.2
    exact this (List.mem_map_of_mem _ hx) (by simp)
  unfold RemoveOldest
  have hlast : c.ll.getLast? = some last := by rw [hll]; simp
  rw [hlast]
  simp only
  have : Remove c.ll last.id = init := by
    unfold Remove
    rw [hll, eraseP_split _ init [] last hinit (by simp)]
    simp
  rw [this]

theorem Inv_RemoveOldest [Value V] {c : Cache V} (h : Inv c) : Inv (RemoveOldest c) := by
  rcases List.eq_nil_or_concat c.ll with hnil | ⟨init, last, hll⟩
  · rw [RemoveOldest_nil hnil]; exact h
  · rw [List.concat_eq_append] at hll
    rw [RemoveOldest_snoc h hll]
    have hids := h.ids_nodup
    have hkeys := h.keys_nodup
    rw [hll] at hids hkeys
    simp only [tags, List.map_append, List.map_cons, List.map_nil] at hids hkeys
    constructor
    · exact (List.nodup_append.1 hids).1
    · exact (List.nodup_append.1 hkeys).1
    · intro k i
      have hidx := h.index k i
      rw [hll] at hidx
      simp only [tags, List.map_append, List.map_cons, List.map_nil, List.mem_append,
        List.mem_singleton, Prod.mk.injEq] at hidx
      simp only [tags]
      by_cases hk : k = last.Value.key
      · simp only [hk, if_true]
        constructor
        · intro hn; cases hn
        · intro hm
          exfalso
          have := (List.nodup_append.1 hkeys).2.2
          exact this (List.mem_map_of_mem Prod.snd hm) (by simp)
      · simp only [hk, if_false]
        rw [hidx]
        simp [hk]
    · intro p hp
      apply h.fresh p
      rw [hll, tags_append]
      exact List.mem_append_left _ hp
    · simp only
      rw [h.bytes, hll, totalBytes_append, totalBytes_cons]
      simp [totalBytes, entryBytes]

theorem Inv_Get [Value V] {c : Cache V} (h : Inv c) (key : String) : Inv (Get c key).2 := by
  unfold Get
  cases hl : lookup c key with
  | none => exact h
  | some e =>
    obtain ⟨hmem, _, _⟩ := lookup_some h hl
    obtain ⟨l1, l2, hsplit, h1, _⟩ := split_at_node c.ll e h.ids_nodup hmem
    simp only
    have hmv : MoveToFront c.ll e.id = e :: (l1 ++ l2) := by
      rw [hsplit, MoveToFront_split l1 l2 e h1]
    rw [hmv]
    have hperm : (tags (e :: (l1 ++ l2))).Perm (tags c.ll) := by
      rw [hsplit]
      simp only [tags, List.map_cons, List.map_append]
      exact (List.perm_middle).symm
    constructor
    · exact (hperm.map _).nodup_iff.2 h.ids_nodup
    · exact (hperm.map _).nodup_iff.2 h.keys_nodup
    · intro k i
      rw [hperm.mem_iff]
      exact h.index k i
    · intro p hp
      exact h.fresh p (hperm.mem_iff.1 hp)
    · simp only
      rw [h.bytes, hsplit]
      simp only [totalBytes_append, totalBytes_cons]
      ring

theorem Inv_evictLoop [Value V] (fuel : Nat) {c c1 : Cache V} (h : Inv c)
    (he : evictLoop fuel c = some c1) : Inv c1 := by
  induction fuel generalizing c with
  | zero => simp [evictLoop] at he
  | succ n ih =>
    unfold evictLoop at he
    split at he
    · exact ih (Inv_RemoveOldest h) he
    · cases he; exact h

theorem Inv_Add [Value V] (fuel : Nat) {c c1 : Cache V} (h : Inv c) (key : String) (value : V)
    (he : Add fuel c key value = some c1) : Inv c1 :=
  Inv_evictLoop fuel (Inv_store h key value) he

/-- Every reachable state satisfies the representation invariant. -/
theorem Reachable.inv [Value V] {C : Int} {c : Cache V} (h : Reachable C c) : Inv c := by
  induction h with
  | new onEvicted => exact Inv_New C onEvicted
  | add fuel key value _ he ih => exact Inv_Add fuel ih key value he
  | get key _ ih => exact Inv_Get ih key
  | removeOldest _ ih => exact Inv_RemoveOldest ih

theorem maxBytes_RemoveOldest [Value V] (c : Cache V) :
    (RemoveOldest c).maxBytes = c.maxBytes := by
  unfold RemoveOldest
  split <;> rfl

theorem maxBytes_store [Value V] (c : Cache V) (key : String) (value : V) :
    (store c key value).maxBytes = c.maxBytes := by
  unfold store
  split <;> rfl

theorem maxBytes_evictLoop [Value V] (fuel : Nat) {c c1 : Cache V}
    (he : evictLoop fuel c = some c1) : c1.maxBytes = c.maxBytes := by
  induction fuel generalizing c with
  | zero => simp [evictLoop] at he
  | succ n ih =>
    unfold evictLoop at he
    split at he
    · rw [ih he, maxBytes_RemoveOldest]
    · cases he; rfl

/-- The capacity never changes: a state reachable from `New C _` has `maxBytes = C`. -/
theorem Reachable.maxBytes_eq [Value V] {C : Int} {c : Cache V} (h : Reachable C c) :
    c.maxBytes = C := by
  induction h with
  | new onEvicted => rfl
  | add fuel key value _ he ih =>
    unfold Add at he
    rw [maxBytes_evictLoop fuel he, maxBytes_store, ih]
  | get key _ ih =>
    unfold Get
    split <;> exact ih
  | removeOldest _ ih => rw [maxBytes_RemoveOldest, ih]

end lru

namespace lru
variable {V : Type}

theorem listBytes_entries [Value V] (l : List (Element V)) :
    listBytes (l.map (fun e => (e.Value.key, e.Value.value))) = totalBytes l := by
  simp [listBytes, totalBytes, pairBytes, entryBytes, List.map_map, Function.comp_def]

theorem filter_keys_ne (l : List (Element V)) (key : String)
    (h : ∀ x ∈ l, x.Value.key ≠ key) :
    (l.map (fun e => (e.Value.key, e.Value.value))).filter (fun p => p.1 ≠ key) =
      l.map (fun e => (e.Value.key, e.Value.value)) := by
  rw [List.filter_eq_self]
  intro p hp
  obtain ⟨e, he, rfl⟩ := List.mem_map.1 hp
  simpa using h e he

/-- The recency list after the first statement of `Add` is the list `touched`. -/
theorem store_entries [Value V] {c : Cache V} (h : Inv c) (key : String) (value : V) :
    entries (store c key value) = touched (entries c) key value := by
  cases hl : lookup c key with
  | some e =>
    obtain ⟨l1, l2, hsplit, h1, h2, hst⟩ := store_hit h value hl
    obtain ⟨_, hk, _⟩ := lookup_some h hl
    have hkeys := h.keys_nodup
    rw [hsplit] at hkeys
    simp only [tags, List.map_append, List.map_cons, List.map_map] at hkeys
    have hk1 : ∀ x ∈ l1, x.Value.key ≠ key := by
      intro x hx hxk
      have := (List.nodup_append.1 hkeys).2.2
      exact this (List.mem_map_of_mem _ hx) (by simp [hxk, hk])
    have hk2 : ∀ x ∈ l2, x.Value.key ≠ key := by
      intro x hx hxk
      have h3 := (List.nodup_cons.1 (List.nodup_append.1 hkeys).2.1).1
      apply h3
      simp only [Function.comp_apply, hk, ← hxk]
      exact List.mem_map_of_mem (fun a : Element V => a.Value.key) hx
    rw [hst]
    simp only [entries, touched, hsplit, List.map_cons, List.map_append, List.filter_append,
      List.filter_cons, hk, ne_eq, not_true_eq_false, decide_False, Bool.false_eq_true,
      if_false]
    have e1 := filter_keys_ne l1 key hk1
    have e2 := filter_keys_ne l2 key hk2
    simp only [ne_eq] at e1 e2
    rw [e1, e2]
  | none =>
    have hnk := lookup_none h hl
    have hst : entries (store c key value) = (key, value) :: entries c := by
      unfold store; rw [hl]; rfl
    rw [hst]
    simp only [touched, entries]
    rw [filter_keys_ne c.ll key hnk]

theorem store_length_le [Value V] {c : Cache V} (h : Inv c) (key : String) (value : V) :
    (store c key value).ll.length ≤ c.ll.length + 1 := by
  cases hl : lookup c key with
  | some e =>
    obtain ⟨l1, l2, hsplit, _, _, hst⟩ := store_hit h value hl
    rw [hst, hsplit]
    simp
  | none =>
    unfold store; rw [hl]
    simp

/-- The eviction loop with a positive capacity: it returns, and what is left
is the longest initial segment of the list that fits. -/
theorem evictLoop_spec [Value V] (fuel : Nat) {c : Cache V} (h : Inv c)
    (hC : 0 < c.maxBytes) (hf : c.ll.length < fuel) :
    ∃ c1 n, evictLoop fuel c = some c1 ∧ n ≤ c.ll.length ∧ c1.ll = c.ll.take n ∧
      c1.nbytes ≤ c.maxBytes ∧
      ∀ m, n < m → m ≤ c.ll.length → c.maxBytes < totalBytes (c.ll.take m) := by
  induction fuel generalizing c with
  | zero => omega
  | succ k ih =>
    unfold evictLoop
    by_cases hcond : c.maxBytes ≠ 0 ∧ c.maxBytes < c.nbytes
    · rw [if_pos hcond]
      rcases List.eq_nil_or_concat c.ll with hnil | ⟨init, last, hll⟩
      · exfalso
        have := h.bytes
        rw [hnil] at this
        simp only [totalBytes, List.map_nil, List.sum_nil] at this
        omega
      · rw [List.concat_eq_append] at hll
        have hinv := Inv_RemoveOldest h
        have hmax := maxBytes_RemoveOldest c
        have hll2 : (RemoveOldest c).ll = init := by rw [RemoveOldest_snoc h hll]
        have hlen : c.ll.length = init.length + 1 := by rw [hll]; simp
        obtain ⟨c1, n, he, hn, hl1, hb, hbig⟩ :=
          ih hinv (by rw [hmax]; exact hC) (by rw [hll2]; omega)
        rw [hll2] at hn hl1 hbig
        rw [hmax] at hb hbig
        refine ⟨c1, n, he, by omega, ?_, hb, ?_⟩
        · rw [hl1, hll, List.take_append_of_le_length hn]
        · intro m hm1 hm2
          by_cases hm : m ≤ init.length
          · have := hbig m hm1 hm
            rw [hll, List.take_append_of_le_length hm]
            exact this
          · have hmeq : m = c.ll.length := by omega
            rw [hmeq, List.take_length, ← h.bytes]
            exact hcond.2
    · rw [if_neg hcond]
      refine ⟨c, c.ll.length, rfl, le_refl _, by simp, ?_, ?_⟩
      · by_contra hlt
        exact hcond ⟨by omega, by omega⟩
      · intro m hm1 hm2; omega

/-- C1. For a cache created with capacity `C > 0`, in any state reached by
calls of Add, Get and RemoveOldest, a further `Add` returns (with fuel for
one loop test per entry and one more) and leaves the byte count at most `C`. -/
theorem Add_nbytes_le_capacity [Value V] {C : Int} {c : Cache V} (hr : Reachable C c)
    (hC : 0 < C) (key : String) (value : V) (fuel : Nat) (hf : c.ll.length + 2 ≤ fuel) :
    ∃ c1, Add fuel c key value = some c1 ∧ c1.nbytes ≤ C := by
  have hinv := Inv_store hr.inv key value
  have hmax : (store c key value).maxBytes = C := by rw [maxBytes_store, hr.maxBytes_eq]
  have hlen := store_length_le hr.inv key value
  obtain ⟨c1, n, he, _, _, hb, _⟩ :=
    evictLoop_spec fuel hinv (by rw [hmax]; exact hC) (by omega)
  exact ⟨c1, he, by rw [hmax] at hb; exact hb⟩

/-- C2. Strict LRU eviction. In a reachable state with recency list `L`,
`Add key value` returns; with capacity 0 the new list is `touched L key value`
(the pair in front, then the other entries of `L` in their old order), and
with capacity `C > 0` it is the longest initial segment of that list whose
total of `len(key) + value.Len()` is at most `C`. -/
theorem Add_strict_lru [Value V] {C : Int} {c : Cache V} (hr : Reachable C c)
    (key : String) (value : V) (fuel : Nat) (hf : c.ll.length + 2 ≤ fuel) :
    (C = 0 → ∃ c1, Add fuel c key value = some c1 ∧
        entries c1 = touched (entries c) key value) ∧
    (0 < C → ∃ c1 n, Add fuel c key value = some c1 ∧
        entries c1 = (touched (entries c) key value).take n ∧
        listBytes ((touched (entries c) key value).take n) ≤ C ∧
        ∀ m, n < m → m ≤ (touched (entries c) key value).length →
          C < listBytes ((touched (entries c) key value).take m)) := by
  have hinv := Inv_store hr.inv key value
  have hmax : (store c key value).maxBytes = C := by rw [maxBytes_store, hr.maxBytes_eq]
  have hlen := store_length_le hr.inv key value
  have hent := store_entries hr.inv key value
  constructor
  · intro h0
    refine ⟨store c key value, ?_, hent⟩
    obtain ⟨k, rfl⟩ : ∃ k, fuel = k + 1 := ⟨fuel - 1, by omega⟩
    unfold Add evictLoop
    rw [if_neg]
    rw [hmax, h0]
    simp
  · intro hC
    obtain ⟨c1, n, he, hn, hl1, hb, hbig⟩ :=
      evictLoop_spec fuel hinv (by rw [hmax]; exact hC) (by omega)
    rw [hmax] at hb hbig
    have htake : ∀ m, (touched (entries c) key value).take m =
        ((store c key value).ll.take m).map (fun e => (e.Value.key, e.Value.value)) := by
      intro m
      rw [← hent, entries, List.map_take]
    have hlen2 : (touched (entries c) key value).length = (store c key value).ll.length := by
      rw [← hent, entries, List.length_map]
    refine ⟨c1, n, he, ?_, ?_, ?_⟩
    · rw [htake, ← hl1, entries]
    · rw [htake, listBytes_entries, ← hl1, ← (Inv_evictLoop fuel hinv he).bytes]
      exact hb
    · intro m hm1 hm2
      rw [htake, listBytes_entries]
      exact hbig m hm1 (by omega)

end lru

namespace lru
variable {V : Type}

/-- What the eviction loop leaves when it returns, for any capacity: an
initial segment of the list, and every longer one is over the capacity. -/
theorem evictLoop_some [Value V] (fuel : Nat) {c c1 : Cache V} (h : Inv c)
    (he : evictLoop fuel c = some c1) :
    ∃ n, n ≤ c.ll.length ∧ c1.ll = c.ll.take n ∧ (c.maxBytes = 0 → n = c.ll.length) ∧
      ∀ m, n < m → m ≤ c.ll.length → c.maxBytes < totalBytes (c.ll.take m) := by
  induction fuel generalizing c with
  | zero => simp [evictLoop] at he
  | succ k ih =>
    unfold evictLoop at he
    by_cases hcond : c.maxBytes ≠ 0 ∧ c.maxBytes < c.nbytes
    · rw [if_pos hcond] at he
      rcases List.eq_nil_or_concat c.ll with hnil | ⟨init, last, hll⟩
      · rw [RemoveOldest_nil hnil] at he
        exact ih h he
      · rw [List.concat_eq_append] at hll
        have hll2 : (RemoveOldest c).ll = init := by rw [RemoveOldest_snoc h hll]
        have hlen : c.ll.length = init.length + 1 := by rw [hll]; simp
        obtain ⟨n, hn, hl1, _, hbig⟩ := ih (Inv_RemoveOldest h) he
        rw [hll2] at hn hl1 hbig
        rw [maxBytes_RemoveOldest] at hbig
        refine ⟨n, by omega, ?_, ?_, ?_⟩
        · rw [hl1, hll, List.take_append_of_le_length hn]
        · intro h0; exact absurd h0 hcond.1
        · intro m hm1 hm2
          by_cases hm : m ≤ init.length
          · rw [hll, List.take_append_of_le_length hm]
            exact hbig m hm1 hm
          · have hmeq : m = c.ll.length := by omega
            rw [hmeq, List.take_length, ← h.bytes]
            exact hcond.2
    · rw [if_neg hcond] at he
      cases he
      exact ⟨_, le_refl _, by simp, fun _ => rfl, fun m hm1 hm2 => by omega⟩

/-- With a capacity that is not negative `Add` returns, given fuel for one
loop test per entry and one more. -/
theorem Add_returns [Value V] {c : Cache V} (h : Inv c) (hC : 0 ≤ c.maxBytes)
    (key : String) (value : V) (fuel : Nat) (hf : c.ll.length + 2 ≤ fuel) :
    ∃ c1, Add fuel c key value = some c1 := by
  have hinv := Inv_store h key value
  have hlen := store_length_le h key value
  rcases lt_or_eq_of_le hC with hpos | hzero
  · obtain ⟨c1, _, he, _⟩ :=
      evictLoop_spec fuel hinv (by rw [maxBytes_store]; exact hpos) (by omega)
    exact ⟨c1, he⟩
  · obtain ⟨k, rfl⟩ : ∃ k, fuel = k + 1 := ⟨fuel - 1, by omega⟩
    refine ⟨store c key value, ?_⟩
    unfold Add evictLoop
    rw [if_neg]
    rw [maxBytes_store, ← hzero]
    simp

theorem lookup_of_mem [Value V] {c : Cache V} (h : Inv c) {e : Element V} (he : e ∈ c.ll) :
    lookup c e.Value.key = some e := by
  have hc : c.cache e.Value.key = some e.id :=
    (h.index e.Value.key e.id).2 (List.mem_map.2 ⟨e, he, rfl⟩)
  obtain ⟨l1, l2, hsplit, h1, _⟩ := split_at_node c.ll e h.ids_nodup he
  unfold lookup
  rw [hc]
  simp only
  rw [hsplit]
  exact find_split _ l1 l2 e h1 (by simp)

/-- An entry that fits is found by the next `Get`: after `Add key value`
with capacity 0, or with `len(key) + value.Len()` within the capacity,
`Get key` hits with `value`. -/
theorem Get_after_Add [Value V] {c c1 : Cache V} (h : Inv c) (key : String) (value : V)
    (fuel : Nat) (hfit : c.maxBytes = 0 ∨ pairBytes (key, value) ≤ c.maxBytes)
    (he : Add fuel c key value = some c1) : (Get c1 key).1 = some value := by
  have hinv := Inv_store h key value
  have hent := store_entries h key value
  obtain ⟨n, hn, hl1, hz, hbig⟩ := evictLoop_some fuel hinv he
  rw [maxBytes_store] at hz hbig
  cases hs : (store c key value).ll with
  | nil =>
    rw [entries, hs] at hent
    simp [touched] at hent
  | cons e rest =>
    rw [entries, hs] at hent
    simp only [List.map_cons, touched, List.cons.injEq, Prod.mk.injEq] at hent
    obtain ⟨⟨hk, hv⟩, _⟩ := hent
    rw [hs] at hn hl1 hz hbig
    have hn1 : 1 ≤ n := by
      by_contra hlt
      have hn0 : n = 0 := by omega
      rcases hfit with h0 | hle
      · have := hz h0
        simp at this
        omega
      · have := hbig 1 (by omega) (by simp)
        simp only [List.take_succ_cons, List.take_zero, totalBytes, List.map_cons, List.map_nil,
          List.sum_cons, List.sum_nil, add_zero, entryBytes, hk, hv] at this
        simp only [pairBytes] at hle
        omega
    obtain ⟨k, rfl⟩ : ∃ k, n = k + 1 := ⟨n - 1, by omega⟩
    rw [List.take_succ_cons] at hl1
    have hmem : e ∈ c1.ll := by rw [hl1]; exact List.mem_cons_self _ _
    have hlook := lookup_of_mem (Inv_evictLoop fuel hinv he) hmem
    rw [hk] at hlook
    unfold Get
    rw [hlook]
    simp [hv]

theorem Get_miss [Value V] (c : Cache V) (key : String) (h : (Get c key).1 = none) :
    (Get c key).2 = c := by
  unfold Get at h ⊢
  split at h
  · simp at h
  · rfl

/-- With a negative capacity and values of non-negative length the eviction
loop never returns: the byte count never falls below 0. -/
theorem evictLoop_negative [Value V] (hlen : ∀ v : V, 0 ≤ Value.Len v) (fuel : Nat)
    {c : Cache V} (h : Inv c) (hC : c.maxBytes < 0) : evictLoop fuel c = none := by
  induction fuel generalizing c with
  | zero => rfl
  | succ k ih =>
    have hnn : 0 ≤ c.nbytes := by
      rw [h.bytes]
      unfold totalBytes
      apply List.sum_nonneg
      intro x hx
      obtain ⟨e, _, rfl⟩ := List.mem_map.1 hx
      unfold entryBytes
      have := hlen e.Value.value
      omega
    unfold evictLoop
    rw [if_pos ⟨by omega, by omega⟩]
    exact ih (Inv_RemoveOldest h) (by rw [maxBytes_RemoveOldest]; exact hC)

end lru

namespace lru
variable {V : Type}

theorem entries_mem [Value V] {c : Cache V} {key : String} {v : V} :
    (key, v) ∈ entries c ↔ ∃ e ∈ c.ll, e.Value.key = key ∧ e.Value.value = v := by
  simp only [entries, List.mem_map, Prod.mk.injEq]

/-- Shape of the list after a hit of `Get`. -/
theorem Get_hit_shape [Value V] {c : Cache V} (h : Inv c) {key : String} {e : Element V}
    (hl : lookup c key = some e) :
    (Get c key).1 = some e.Value.value ∧
    (Get c key).2.nbytes = c.nbytes ∧ (Get c key).2.cache = c.cache ∧
    (Get c key).2.evictions = c.evictions ∧ (Get c key).2.maxBytes = c.maxBytes ∧
    entries (Get c key).2 = touched (entries c) key e.Value.value ∧
    (entries (Get c key).2).Perm (entries c) := by
  obtain ⟨hmem, hk, _⟩ := lookup_some h hl
  obtain ⟨l1, l2, hsplit, h1, h2⟩ := split_at_node c.ll e h.ids_nodup hmem
  have hkeys := h.keys_nodup
  rw [hsplit] at hkeys
  simp only [tags, List.map_append, List.map_cons, List.map_map] at hkeys
  have hk1 : ∀ x ∈ l1, x.Value.key ≠ key := by
    intro x hx hxk
    have := (List.nodup_append.1 hkeys).2.2
    exact this (List.mem_map_of_mem _ hx) (by simp [hxk, hk])
  have hk2 : ∀ x ∈ l2, x.Value.key ≠ key := by
    intro x hx hxk
    have h3 := (List.nodup_cons.1 (List.nodup_append.1 hkeys).2.1).1
    apply h3
    simp only [Function.comp_apply, hk, ← hxk]
    exact List.mem_map_of_mem (fun a : Element V => a.Value.key) hx
  have hget : Get c key = (some e.Value.value, { c with ll := e :: (l1 ++ l2) }) := by
    unfold Get
    rw [hl]
    simp only
    rw [hsplit, MoveToFront_split l1 l2 e h1]
  rw [hget]
  refine ⟨rfl, rfl, rfl, rfl, rfl, ?_, ?_⟩
  · simp only [entries, touched, hsplit, List.map_cons, List.map_append, List.filter_append,
      List.filter_cons, hk, ne_eq, not_true_eq_false, decide_False, Bool.false_eq_true,
      if_false]
    have e1 := filter_keys_ne l1 key hk1
    have e2 := filter_keys_ne l2 key hk2
    simp only [ne_eq] at e1 e2
    rw [e1, e2]
  · simp only [entries, hsplit, List.map_cons, List.map_append]
    exact (List.perm_middle).symm

/-- C15. Map/list consistency. In every state reachable from `New` by Add, Get
and RemoveOldest the keys of the map are the keys of the list entries, no key
occurs twice in the list, a mapped node is the one list node with that
identity and it holds the key, and `Len()` is the number of mapped keys. -/
theorem cache_keys_match_list [Value V] {C : Int} {c : Cache V} (hr : Reachable C c) :
    (∀ k, (c.cache k).isSome = true ↔ k ∈ c.ll.map (fun e => e.Value.key)) ∧
    (c.ll.map (fun e => e.Value.key)).Nodup ∧
    (∀ k i, c.cache k = some i →
      ∃ e ∈ c.ll, e.id = i ∧ e.Value.key = k ∧ ∀ e1 ∈ c.ll, e1.id = i → e1 = e) ∧
    Set.ncard {k | (c.cache k).isSome = true} = Len c := by
  have h := hr.inv
  have hnd : (c.ll.map (fun e => e.Value.key)).Nodup := by
    simpa [tags, List.map_map, Function.comp_def] using h.keys_nodup
  have hiff : ∀ k, (c.cache k).isSome = true ↔ k ∈ c.ll.map (fun e => e.Value.key) := by
    intro k
    constructor
    · intro hs
      obtain ⟨i, hi⟩ := Option.isSome_iff_exists.1 hs
      obtain ⟨e, he, heq⟩ := List.mem_map.1 ((h.index k i).1 hi)
      exact List.mem_map.2 ⟨e, he, congrArg Prod.snd heq⟩
    · intro hk
      obtain ⟨e, he, rfl⟩ := List.mem_map.1 hk
      have : c.cache e.Value.key = some e.id :=
        (h.index e.Value.key e.id).2 (List.mem_map.2 ⟨e, he, rfl⟩)
      rw [this]
      rfl
  refine ⟨hiff, hnd, ?_, ?_⟩
  · intro k i hki
    obtain ⟨e, he, heq⟩ := List.mem_map.1 ((h.index k i).1 hki)
    refine ⟨e, he, congrArg Prod.fst heq, congrArg Prod.snd heq, ?_⟩
    intro e1 he1 hid
    exact ids_injective h.ids_nodup he1 he (by rw [hid]; exact (congrArg Prod.fst heq).symm)
  · have hset : {k | (c.cache k).isSome = true} =
        ((c.ll.map (fun e => e.Value.key)).toFinset : Set String) := by
      ext k
      simp only [Set.mem_setOf_eq, List.coe_toFinset]
      exact hiff k
    rw [hset, Set.ncard_coe_Finset, List.toFinset_card_of_nodup hnd, List.length_map]
    rfl

/-- C16. Byte accounting. In every state reachable from `New` by Add, Get and
RemoveOldest the byte count is the sum of `len(key) + value.Len()` over the
entries, so it is 0 when the cache is empty; and `Add` on a key that is
present changes the count by `new.Len() - old.Len()` before it evicts. -/
theorem nbytes_is_sum_of_entries [Value V] {C : Int} {c : Cache V} (hr : Reachable C c) :
    c.nbytes = listBytes (entries c) ∧
    (Len c = 0 → c.nbytes = 0) ∧
    (∀ key value e, lookup c key = some e →
      (store c key value).nbytes = c.nbytes + (Value.Len value - Value.Len e.Value.value)) := by
  have h := hr.inv
  refine ⟨?_, ?_, ?_⟩
  · rw [entries, listBytes_entries]
    exact h.bytes
  · intro h0
    have : c.ll = [] := List.length_eq_zero.1 h0
    rw [h.bytes, this]
    rfl
  · intro key value e hl
    unfold store
    rw [hl]

/-- C17. `Get key` hits with `v` exactly when the cache holds the entry
`(key, v)` and misses otherwise. On a hit the entry moves to the front, the
other entries keep their order, the entries are the same ones and the byte
count, the map and the capacity are unchanged; on a miss the state is
unchanged. -/
theorem Get_hit_or_miss [Value V] {C : Int} {c : Cache V} (hr : Reachable C c)
    (key : String) :
    (∀ v, (Get c key).1 = some v ↔ (key, v) ∈ entries c) ∧
    ((Get c key).1 = none ↔ ∀ v, (key, v) ∉ entries c) ∧
    (∀ v, (Get c key).1 = some v →
      entries (Get c key).2 = touched (entries c) key v ∧
      (entries (Get c key).2).Perm (entries c) ∧
      (Get c key).2.nbytes = c.nbytes ∧ (Get c key).2.cache = c.cache ∧
      (Get c key).2.maxBytes = c.maxBytes ∧ (Get c key).2.evictions = c.evictions) ∧
    ((Get c key).1 = none → (Get c key).2 = c) := by
  have h := hr.inv
  have hiff : ∀ v, (Get c key).1 = some v ↔ (key, v) ∈ entries c := by
    intro v
    rw [entries_mem]
    constructor
    · intro hg
      cases hl : lookup c key with
      | none =>
        unfold Get at hg
        rw [hl] at hg
        cases hg
      | some e =>
        obtain ⟨hmem, hk, _⟩ := lookup_some h hl
        have := (Get_hit_shape h hl).1
        rw [this] at hg
        exact ⟨e, hmem, hk, Option.some.inj hg⟩
    · rintro ⟨e, he, hk, hv⟩
      have hl := lookup_of_mem h he
      rw [hk] at hl
      rw [(Get_hit_shape h hl).1, hv]
  refine ⟨hiff, ?_, ?_, Get_miss c key⟩
  · constructor
    · intro hn v hv
      rw [← hiff v, hn] at hv
      cases hv
    · intro hall
      cases hg : (Get c key).1 with
      | none => rfl
      | some v => exact absurd ((hiff v).1 hg) (hall v)
  · intro v hg
    cases hl : lookup c key with
    | none =>
      unfold Get at hg
      rw [hl] at hg
      cases hg
    | some e =>
      obtain ⟨h1, h2, h3, h4, h5, h6, h7⟩ := Get_hit_shape h hl
      rw [h1] at hg
      have hv : e.Value.value = v := Option.some.inj hg
      rw [hv] at h6
      exact ⟨h6, h7, h2, h3, h5, h4⟩

/-- C18. On a reachable cache whose list ends in the node `last`,
`RemoveOldest` leaves the list without that node, deletes its key from the
map and nothing else, lowers the byte count by `len(key) + value.Len()` of the
entry, and calls the callback, when one is set, once with that key and value;
on an empty cache it changes nothing. -/
theorem RemoveOldest_removes_back [Value V] {C : Int} {c : Cache V} (hr : Reachable C c) :
    (c.ll = [] → RemoveOldest c = c) ∧
    (∀ init last, c.ll = init ++ [last] →
      (RemoveOldest c).ll = init ∧
      (RemoveOldest c).cache last.Value.key = none ∧
      (∀ k, k ≠ last.Value.key → (RemoveOldest c).cache k = c.cache k) ∧
      (RemoveOldest c).nbytes = c.nbytes - entryBytes last.Value ∧
      (c.OnEvicted = true →
        (RemoveOldest c).evictions = c.evictions ++ [(last.Value.key, last.Value.value)]) ∧
      (c.OnEvicted = false → (RemoveOldest c).evictions = c.evictions) ∧
      (RemoveOldest c).maxBytes = c.maxBytes) := by
  refine ⟨RemoveOldest_nil, ?_⟩
  intro init last hll
  rw [RemoveOldest_snoc hr.inv hll]
  refine ⟨rfl, by simp, ?_, rfl, ?_, ?_, rfl⟩
  · intro k hk
    simp [hk]
  · intro hon
    simp [hon]
  · intro hoff
    simp [hoff]

/-- C20. Termination of the eviction loop. On a state that satisfies the
invariant of the cache, with values of non-negative length: when `maxBytes`
is at least 0, `Add` returns for every fuel that pays one loop test per entry
and one more; when `maxBytes` is negative, `Add` returns for no fuel at all.
So `Add` terminates if and only if `maxBytes >= 0`. -/
theorem Add_terminates_iff [Value V] (hlen : ∀ v : V, 0 ≤ Value.Len v) {c : Cache V}
    (h : Inv c) (key : String) (value : V) :
    (0 ≤ c.maxBytes → ∀ fuel, c.ll.length + 2 ≤ fuel → ∃ c1, Add fuel c key value = some c1) ∧
    (c.maxBytes < 0 → ∀ fuel, Add fuel c key value = none) ∧
    ((∃ fuel c1, Add fuel c key value = some c1) ↔ 0 ≤ c.maxBytes) := by
  have hpos : 0 ≤ c.maxBytes → ∀ fuel, c.ll.length + 2 ≤ fuel →
      ∃ c1, Add fuel c key value = some c1 :=
    fun hC fuel hf => Add_returns h hC key value fuel hf
  have hneg : c.maxBytes < 0 → ∀ fuel, Add fuel c key value = none := by
    intro hC fuel
    unfold Add
    exact evictLoop_negative hlen fuel (Inv_store h key value)
      (by rw [maxBytes_store]; exact hC)
  refine ⟨hpos, hneg, ?_⟩
  constructor
  · rintro ⟨fuel, c1, he⟩
    by_contra hC
    rw [hneg (by omega) fuel] at he
    cases he
  · intro hC
    obtain ⟨c1, he⟩ := hpos hC (c.ll.length + 2) (le_refl _)
    exact ⟨_, c1, he⟩

end lru

namespace consistenthash

/-- Any bound of at least `j - i` rounds gives the same result. -/
theorem searchLoop_fuel (f : Nat → Bool) (fuel1 fuel2 i j : Nat)
    (h1 : j - i ≤ fuel1) (h2 : j - i ≤ fuel2) :
    searchLoop f fuel1 i j = searchLoop f fuel2 i j := by
  induction fuel1 generalizing fuel2 i j with
  | zero =>
    cases fuel2 with
    | zero => rfl
    | succ k =>
      unfold searchLoop
      rw [if_neg (by omega)]
  | succ n ih =>
    cases fuel2 with
    | zero =>
      unfold searchLoop
      rw [if_neg (by omega)]
    | succ k =>
      unfold searchLoop
      by_cases hij : i < j
      · rw [if_pos hij, if_pos hij]
        simp only
        split
        · exact ih k _ _ (by omega) (by omega)
        · exact ih k _ _ (by omega) (by omega)
      · rw [if_neg hij, if_neg hij]

/-- Binary search over a predicate that is monotone below `n`: the loop
returns the boundary between the indices where it fails and where it holds. -/
theorem searchLoop_spec (f : Nat → Bool) (n : Nat)
    (hmono : ∀ a b, a ≤ b → b < n → f a = true → f b = true)
    (fuel i j : Nat) (hfuel : j - i ≤ fuel) (hij : i ≤ j) (hjn : j ≤ n)
    (hlo : ∀ k, k < i → f k = false) (hhi : ∀ k, j ≤ k → k < n → f k = true) :
    i ≤ searchLoop f fuel i j ∧ searchLoop f fuel i j ≤ j ∧
      (∀ k, k < searchLoop f fuel i j → f k = false) ∧
      (∀ k, searchLoop f fuel i j ≤ k → k < n → f k = true) := by
  induction fuel generalizing i j with
  | zero =>
    have : i = j := by omega
    subst this
    exact ⟨le_refl _, le_refl _, hlo, hhi⟩
  | succ m ih =>
    unfold searchLoop
    by_cases hlt : i < j
    · rw [if_pos hlt]
      simp only
      have hh1 : i ≤ (i + j) / 2 := by omega
      have hh2 : (i + j) / 2 < j := by omega
      cases hf : f ((i + j) / 2) with
      | false =>
        simp only [Bool.not_false, if_true]
        have hlo2 : ∀ k, k < (i + j) / 2 + 1 → f k = false := by
          intro k hk
          by_contra hne
          have hkt : f k = true := by simpa using hne
          have := hmono k ((i + j) / 2) (by omega) (by omega) hkt
          rw [hf] at this
          cases this
        obtain ⟨a, b, c, d⟩ := ih ((i + j) / 2 + 1) j (by omega) (by omega) hjn hlo2 hhi
        exact ⟨by omega, b, c, d⟩
      | true =>
        simp only [Bool.not_true, Bool.false_eq_true, if_false]
        have hhi2 : ∀ k, (i + j) / 2 ≤ k → k < n → f k = true := by
          intro k hk hkn
          exact hmono _ k hk hkn hf
        obtain ⟨a, b, c, d⟩ := ih i ((i + j) / 2) (by omega) hh1 (by omega) hlo hhi2
        exact ⟨a, by omega, c, d⟩
    · rw [if_neg hlt]
      have : i = j := by omega
      subst this
      exact ⟨le_refl _, le_refl _, hlo, hhi⟩

/-- The function `sort.Search` on a monotone predicate. -/
theorem Search_spec (f : Nat → Bool) (n : Nat)
    (hmono : ∀ a b, a ≤ b → b < n → f a = true → f b = true) :
    Search n f ≤ n ∧ (∀ k, k < Search n f → f k = false) ∧
      (∀ k, Search n f ≤ k → k < n → f k = true) := by
  obtain ⟨_, b, c, d⟩ := searchLoop_spec f n hmono n 0 n (by omega) (by omega) (le_refl _)
    (by intro k hk; omega) (by intro k hk hkn; omega)
  exact ⟨b, c, d⟩

/-- The virtual-node hash `Get` selects in a sorted non-empty array: the
least one that is at least `h`, and the least of all when there is none. -/
theorem selected_spec (keys : List Int) (hs : keys.Sorted (fun a b => a ≤ b))
    (hne : keys ≠ []) (h : Int) :
    selected keys h ∈ keys ∧
    ((h ≤ selected keys h ∧ ∀ y ∈ keys, h ≤ y → selected keys h ≤ y) ∨
      ((∀ y ∈ keys, y < h) ∧ ∀ y ∈ keys, selected keys h ≤ y)) := by
  unfold selected
  have hlen : 0 < keys.length := List.length_pos.2 hne
  have hsorted : ∀ a b (ha : a < keys.length) (hb : b < keys.length), a ≤ b →
      keys[a] ≤ keys[b] := by
    intro a b ha hb hab
    rcases Nat.lt_or_eq_of_le hab with hlt | heq
    · exact (List.pairwise_iff_getElem.1 hs) a b ha hb hlt
    · subst heq; exact le_refl _
  have hmono : ∀ a b, a ≤ b → b < keys.length →
      (fun i => decide (keys.getD i 0 ≥ h)) a = true →
      (fun i => decide (keys.getD i 0 ≥ h)) b = true := by
    intro a b hab hb hfa
    have ha : a < keys.length := by omega
    simp only [List.getD_eq_getElem _ _ ha, List.getD_eq_getElem _ _ hb, ge_iff_le,
      decide_eq_true_eq] at hfa ⊢
    exact le_trans hfa (hsorted a b ha hb hab)
  obtain ⟨hle, hlo, hhi⟩ := Search_spec _ keys.length hmono
  generalize Search keys.length (fun i => decide (keys.getD i 0 ≥ h)) = idx at hle hlo hhi ⊢
  rcases Nat.lt_or_eq_of_le hle with hlt | heq
  · rw [Nat.mod_eq_of_lt hlt, List.getD_eq_getElem _ _ hlt]
    refine ⟨List.getElem_mem _, Or.inl ⟨?_, ?_⟩⟩
    · have := hhi idx (le_refl _) hlt
      simp only [List.getD_eq_getElem _ _ hlt, ge_iff_le, decide_eq_true_eq] at this
      exact this
    · intro y hy hhy
      obtain ⟨k, hk, rfl⟩ := List.mem_iff_getElem.1 hy
      by_cases hki : k < idx
      · have := hlo k hki
        simp only [List.getD_eq_getElem _ _ hk, ge_iff_le, decide_eq_false_iff_not, not_le] at this
        omega
      · exact hsorted idx k hlt hk (by omega)
  · subst heq
    rw [Nat.mod_self, List.getD_eq_getElem _ _ hlen]
    refine ⟨List.getElem_mem _, Or.inr ⟨?_, ?_⟩⟩
    · intro y hy
      obtain ⟨k, hk, rfl⟩ := List.mem_iff_getElem.1 hy
      have := hlo k hk
      simp only [List.getD_eq_getElem _ _ hk, ge_iff_le, decide_eq_false_iff_not, not_le] at this
      exact this
    · intro y hy
      obtain ⟨k, hk, rfl⟩ := List.mem_iff_getElem.1 hy
      exact hsorted 0 k hlen hk (Nat.zero_le _)

end consistenthash

namespace consistenthash

theorem Get_of_nil (m : Map) (key : String) (h : m.keys = []) : Get m key = "" := by
  unfold Get
  rw [h]
  rfl

theorem Get_of_ne_nil (m : Map) (key : String) (h : m.keys ≠ []) :
    Get m key = (m.hashMap (selected m.keys (hashInt m.hash key))).getD "" := by
  unfold Get selected
  rw [if_neg]
  intro h0
  exact h (List.length_eq_zero.1 h0)

/-- The inner loop of `Add` run over any list of replica indices. -/
theorem foldl_addReplica (key : String) (is : List Nat) (m : Map) :
    (is.foldl (fun m i => addReplica m key i) m).hash = m.hash ∧
    (is.foldl (fun m i => addReplica m key i) m).replicas = m.replicas ∧
    (is.foldl (fun m i => addReplica m key i) m).keys =
      m.keys ++ is.map (fun i => hashInt m.hash (toString i ++ key)) ∧
    ∀ h, (is.foldl (fun m i => addReplica m key i) m).hashMap h =
      if h ∈ is.map (fun i => hashInt m.hash (toString i ++ key)) then some key
      else m.hashMap h := by
  induction is generalizing m with
  | nil => simp
  | cons i t ih =>
    obtain ⟨h1, h2, h3, h4⟩ := ih (addReplica m key i)
    simp only [List.foldl_cons]
    refine ⟨by rw [h1]; rfl, by rw [h2]; rfl, ?_, ?_⟩
    · rw [h3]
      simp [addReplica]
    · intro h
      rw [h4]
      simp only [addReplica, List.map_cons, List.mem_cons]
      by_cases ht : h ∈ List.map (fun i => hashInt m.hash (toString i ++ key)) t
      · simp [ht]
      · by_cases hi : h = hashInt m.hash (toString i ++ key)
        · simp [hi]
        · simp [ht, hi]

theorem addKey_spec (m : Map) (key : String) :
    (addKey m key).hash = m.hash ∧ (addKey m key).replicas = m.replicas ∧
    (addKey m key).keys = m.keys ++ vnodes m.hash m.replicas key ∧
    ∀ h, (addKey m key).hashMap h =
      if h ∈ vnodes m.hash m.replicas key then some key else m.hashMap h :=
  foldl_addReplica key (List.range m.replicas.toNat) m

theorem sortInts_perm (l : List Int) : (sortInts l).Perm l :=
  List.perm_insertionSort _ l

theorem sortInts_sorted (l : List Int) : (sortInts l).Sorted (fun a b => a ≤ b) :=
  List.sorted_insertionSort _ l

theorem Add_sorted (m : Map) (peers : List String) :
    (Add m peers).keys.Sorted (fun a b => a ≤ b) :=
  sortInts_sorted _

theorem build_sorted (r : Int) (fn : Option Hash) (calls : List (List String)) :
    (build r fn calls).keys.Sorted (fun a b => a ≤ b) := by
  unfold build
  induction calls using List.reverseRecOn with
  | nil => simp [New]
  | append_singleton cs c _ =>
    rw [List.foldl_append]
    exact Add_sorted _ c

theorem Holds_addKey {hash : Hash} {r : Int} {S : List String} {m : Map}
    (h : Holds hash r S m) (key : String) : Holds hash r (S ++ [key]) (addKey m key) := by
  obtain ⟨h1, h2, h3, h4⟩ := addKey_spec m key
  rw [h.hash_eq, h.replicas_eq] at h3 h4
  constructor
  · rw [h1, h.hash_eq]
  · rw [h2, h.replicas_eq]
  · rw [h3]
    simp only [List.flatMap_append, List.flatMap_cons, List.flatMap_nil, List.append_nil]
    exact h.keys_perm.append_right _
  · intro x p hx
    rw [h4] at hx
    by_cases hm : x ∈ vnodes hash r key
    · rw [if_pos hm] at hx
      cases hx
      exact ⟨by simp, hm⟩
    · rw [if_neg hm] at hx
      obtain ⟨a, b⟩ := h.sound x p hx
      exact ⟨List.mem_append_left _ a, b⟩
  · intro p hp x hx
    by_cases hm : x ∈ vnodes hash r key
    · exact ⟨key, by simp, hm, by rw [h4, if_pos hm]⟩
    · have hpS : p ∈ S := by
        rcases List.mem_append.1 hp with hp | hp
        · exact hp
        · simp only [List.mem_singleton] at hp
          subst hp
          exact absurd hx hm
      obtain ⟨q, hq, hxq, hmap⟩ := h.complete p hpS x hx
      exact ⟨q, List.mem_append_left _ hq, hxq, by rw [h4, if_neg hm]; exact hmap⟩

theorem Holds_foldl_addKey {hash : Hash} {r : Int} (peers : List String) {S : List String}
    {m : Map} (h : Holds hash r S m) : Holds hash r (S ++ peers) (peers.foldl addKey m) := by
  induction peers generalizing S m with
  | nil => simpa using h
  | cons p t ih =>
    have := ih (Holds_addKey h p)
    simpa using this

theorem Holds_Add {hash : Hash} {r : Int} {S : List String} {m : Map}
    (h : Holds hash r S m) (peers : List String) : Holds hash r (S ++ peers) (Add m peers) := by
  have h1 := Holds_foldl_addKey peers h
  exact
    { hash_eq := h1.hash_eq
      replicas_eq := h1.replicas_eq
      keys_perm := (sortInts_perm _).trans h1.keys_perm
      sound := h1.sound
      complete := h1.complete }

theorem Holds_New (r : Int) (fn : Option Hash) :
    Holds (fn.getD ChecksumIEEE) r [] (New r fn) := by
  constructor <;> simp [New]

theorem Holds_build (r : Int) (fn : Option Hash) (calls : List (List String)) :
    Holds (fn.getD ChecksumIEEE) r calls.flatten (build r fn calls) := by
  unfold build
  induction calls using List.reverseRecOn with
  | nil => simpa using Holds_New r fn
  | append_singleton cs c ih =>
    rw [List.foldl_append]
    have := Holds_Add ih c
    simpa using this

/-- In a ring that holds the peers `S`, a hash of the array is mapped to a peer of `S`. -/
theorem Holds.owner {hash : Hash} {r : Int} {S : List String} {m : Map}
    (h : Holds hash r S m) {x : Int} (hx : x ∈ m.keys) :
    ∃ q ∈ S, x ∈ vnodes hash r q ∧ m.hashMap x = some q := by
  have hx2 := h.keys_perm.mem_iff.1 hx
  obtain ⟨p, hp, hxp⟩ := List.mem_flatMap.1 hx2
  exact h.complete p hp x hxp

end consistenthash

namespace consistenthash

theorem Add_single (m : Map) (p : String) :
    (Add m [p]).hash = m.hash ∧
    (Add m [p]).keys = sortInts (m.keys ++ vnodes m.hash m.replicas p) ∧
    ∀ h, (Add m [p]).hashMap h =
      if h ∈ vnodes m.hash m.replicas p then some p else m.hashMap h := by
  obtain ⟨h1, _, h3, h4⟩ := addKey_spec m p
  refine ⟨h1, ?_, h4⟩
  simp only [Add, List.foldl_cons, List.foldl_nil]
  rw [h3]

/-- Adding one peer to a ring with a sorted array leaves every key with its
old owner or hands it to the new peer. -/
theorem Get_Add_single (m : Map) (hs : m.keys.Sorted (fun a b => a ≤ b)) (p key : String) :
    Get (Add m [p]) key = Get m key ∨ Get (Add m [p]) key = p := by
  obtain ⟨hh, hk, hm⟩ := Add_single m p
  have hperm : (Add m [p]).keys.Perm (m.keys ++ vnodes m.hash m.replicas p) := by
    rw [hk]; exact sortInts_perm _
  by_cases hnil : (Add m [p]).keys = []
  · left
    have hmnil : m.keys = [] := by
      have := hperm.length_eq
      rw [hnil] at this
      simp only [List.length_nil, List.length_append] at this
      exact List.length_eq_zero.1 (by omega)
    rw [Get_of_nil _ _ hnil, Get_of_nil _ _ hmnil]
  · rw [Get_of_ne_nil _ _ hnil, hh]
    obtain ⟨hx1, hx2⟩ := selected_spec (Add m [p]).keys (Add_sorted m [p]) hnil
      (hashInt m.hash key)
    generalize selected (Add m [p]).keys (hashInt m.hash key) = x1 at hx1 hx2 ⊢
    rw [hm]
    by_cases hv : x1 ∈ vnodes m.hash m.replicas p
    · right
      rw [if_pos hv]
      rfl
    · left
      rw [if_neg hv]
      have hx1m : x1 ∈ m.keys := by
        rcases List.mem_append.1 (hperm.mem_iff.1 hx1) with h | h
        · exact h
        · exact absurd h hv
      have hmne : m.keys ≠ [] := List.ne_nil_of_mem hx1m
      have hsub : ∀ y ∈ m.keys, y ∈ (Add m [p]).keys :=
        fun y hy => hperm.mem_iff.2 (List.mem_append_left _ hy)
      rw [Get_of_ne_nil _ _ hmne]
      obtain ⟨hy1, hy2⟩ := selected_spec m.keys hs hmne (hashInt m.hash key)
      generalize selected m.keys (hashInt m.hash key) = x0 at hy1 hy2 ⊢
      have : x1 = x0 := by
        rcases hx2 with ⟨ha, hb⟩ | ⟨ha, hb⟩
        · rcases hy2 with ⟨hc, hd⟩ | ⟨hc, _⟩
          · exact le_antisymm (hb x0 (hsub x0 hy1) hc) (hd x1 hx1m ha)
          · have := hc x1 hx1m
            omega
        · rcases hy2 with ⟨hc, _⟩ | ⟨_, hd⟩
          · have := ha x0 (hsub x0 hy1)
            omega
          · exact le_antisymm (hb x0 (hsub x0 hy1)) (hd x1 hx1m)
      rw [this]

/-- C3. On a non-empty ring built by `New` and calls of `Add`, `Get key`
returns the peer that `hashMap` holds for the least virtual-node hash that is
at least `hash(key)`, and, when no virtual-node hash is that large, the peer
held for the smallest virtual-node hash. -/
theorem Get_least_hash_at_least (r : Int) (fn : Option Hash) (calls : List (List String))
    (key : String) (hne : (build r fn calls).keys ≠ []) :
    ∃ x ∈ (build r fn calls).keys,
      (build r fn calls).hashMap x = some (Get (build r fn calls) key) ∧
      ((hashInt (build r fn calls).hash key ≤ x ∧
          ∀ y ∈ (build r fn calls).keys, hashInt (build r fn calls).hash key ≤ y → x ≤ y) ∨
        ((∀ y ∈ (build r fn calls).keys, y < hashInt (build r fn calls).hash key) ∧
          ∀ y ∈ (build r fn calls).keys, x ≤ y)) := by
  obtain ⟨h1, h2⟩ := selected_spec (build r fn calls).keys (build_sorted r fn calls) hne
    (hashInt (build r fn calls).hash key)
  refine ⟨selected (build r fn calls).keys (hashInt (build r fn calls).hash key), h1, ?_, h2⟩
  obtain ⟨q, _, _, hq⟩ := (Holds_build r fn calls).owner h1
  rw [Get_of_ne_nil _ _ hne]
  rw [hq]
  rfl

/-- C5. Adding a peer only moves keys to that peer: on a ring built by `New`
and calls of `Add`, the value of `Get k` after `Add p` is the value it had
before or `p` itself. -/
theorem Get_after_Add_old_or_new (r : Int) (fn : Option Hash) (calls : List (List String))
    (p k : String) :
    Get (Add (build r fn calls) [p]) k = Get (build r fn calls) k ∨
      Get (Add (build r fn calls) [p]) k = p :=
  Get_Add_single (build r fn calls) (build_sorted r fn calls) p k

/-- C6. On a ring built by `New` and calls of `Add`, `Get key` is the empty
string when the ring has no virtual node, and otherwise one of the peers
passed to `Add`. -/
theorem Get_empty_or_added (r : Int) (fn : Option Hash) (calls : List (List String))
    (key : String) :
    ((build r fn calls).keys = [] → Get (build r fn calls) key = "") ∧
    ((build r fn calls).keys ≠ [] → Get (build r fn calls) key ∈ calls.flatten) := by
  constructor
  · exact Get_of_nil _ key
  · intro hne
    obtain ⟨h1, _⟩ := selected_spec (build r fn calls).keys (build_sorted r fn calls) hne
      (hashInt (build r fn calls).hash key)
    obtain ⟨q, hqS, _, hq⟩ := (Holds_build r fn calls).owner h1
    rw [Get_of_ne_nil _ _ hne]
    rw [hq]
    exact hqS

/-- Two rings that hold rearrangements of the same collision-free peer list
with sorted arrays are the same ring. -/
theorem Holds_unique {hash : Hash} {r : Int} {S1 S2 : List String} {m1 m2 : Map}
    (h1 : Holds hash r S1 m1) (h2 : Holds hash r S2 m2) (hperm : S1.Perm S2)
    (hfree : CollisionFree hash r S1)
    (hs1 : m1.keys.Sorted (fun a b => a ≤ b)) (hs2 : m2.keys.Sorted (fun a b => a ≤ b)) :
    m1 = m2 := by
  have hkeys : m1.keys = m2.keys := by
    apply List.eq_of_perm_of_sorted _ hs1 hs2
    exact (h1.keys_perm.trans (hperm.flatMap_right _)).trans h2.keys_perm.symm
  have hone : ∀ (ma mb : Map) (Sa Sb : List String), Holds hash r Sa ma → Holds hash r Sb mb →
      (∀ p, p ∈ Sa → p ∈ Sb) → (∀ p, p ∈ Sb → p ∈ S1) →
      ∀ x p, ma.hashMap x = some p → mb.hashMap x = some p := by
    intro ma mb Sa Sb ha hb hsub hsub1 x p hx
    obtain ⟨hp, hxp⟩ := ha.sound x p hx
    obtain ⟨q, hq, hxq, hmq⟩ := hb.complete p (hsub p hp) x hxp
    have : p = q := hfree p (hsub1 p (hsub p hp)) q (hsub1 q hq) x hxp hxq
    rw [this]
    exact hmq
  have hmap : m1.hashMap = m2.hashMap := by
    funext x
    cases hx1 : m1.hashMap x with
    | some p =>
      exact (hone m1 m2 S1 S2 h1 h2 (fun p hp => hperm.mem_iff.1 hp)
        (fun p hp => hperm.mem_iff.2 hp) x p hx1).symm
    | none =>
      cases hx2 : m2.hashMap x with
      | none => rfl
      | some p =>
        have := hone m2 m1 S2 S1 h2 h1 (fun p hp => hperm.mem_iff.2 hp) (fun p hp => hp) x p hx2
        rw [hx1] at this
        cases this
  cases m1
  cases m2
  simp only [Map.mk.injEq]
  exact ⟨h1.hash_eq.trans h2.hash_eq.symm, h1.replicas_eq.trans h2.replicas_eq.symm, hkeys, hmap⟩

/-- C4 (as amended). Ring construction does not depend on the order of the
peers when no two distinct peers share a virtual-node hash: adding the same
peers in another order, split over calls of `Add` in any way, gives rings on
which `Get` agrees for every key. -/
theorem Get_order_independent (r : Int) (fn : Option Hash) (calls1 calls2 : List (List String))
    (hperm : calls1.flatten.Perm calls2.flatten)
    (hfree : CollisionFree (fn.getD ChecksumIEEE) r calls1.flatten) (key : String) :
    Get (build r fn calls1) key = Get (build r fn calls2) key := by
  rw [Holds_unique (Holds_build r fn calls1) (Holds_build r fn calls2) hperm hfree
    (build_sorted r fn calls1) (build_sorted r fn calls2)]

/-- C4 (as stated) fails: with the hash function of `TestHashing` and one
replica the peers "1" and "01" share the virtual-node hash 1, the map keeps the
peer written last, and the two orders disagree on the key "1". -/
theorem Get_order_dependent_on_collision :
    (["01", "1"] : List String).Perm ["1", "01"] ∧
      Get (Add (New 1 (some atoiHash)) ["1", "01"]) "1" ≠
        Get (Add (New 1 (some atoiHash)) ["01", "1"]) "1" := by
  decide

end consistenthash

namespace consistenthash

theorem foldl_addKey_keys (peers : List String) (m : Map) :
    (peers.foldl addKey m).hash = m.hash ∧ (peers.foldl addKey m).replicas = m.replicas ∧
    (peers.foldl addKey m).keys = m.keys ++ peers.flatMap (vnodes m.hash m.replicas) := by
  induction peers generalizing m with
  | nil => simp
  | cons p t ih =>
    obtain ⟨h1, h2, h3, _⟩ := addKey_spec m p
    obtain ⟨i1, i2, i3⟩ := ih (addKey m p)
    simp only [List.foldl_cons, List.flatMap_cons]
    refine ⟨by rw [i1, h1], by rw [i2, h2], ?_⟩
    rw [i3, h1, h2, h3, List.append_assoc]

theorem vnodes_length (hash : Hash) (r : Int) (p : String) :
    (vnodes hash r p).length = r.toNat := by
  simp [vnodes]

theorem flatMap_vnodes_length (hash : Hash) (r : Int) (peers : List String) :
    (peers.flatMap (vnodes hash r)).length = peers.length * r.toNat := by
  induction peers with
  | nil => simp
  | cons p t ih =>
    simp only [List.flatMap_cons, List.length_append, ih, vnodes_length, List.length_cons]
    ring

theorem build_snoc (r : Int) (fn : Option Hash) (calls : List (List String))
    (peers : List String) : Add (build r fn calls) peers = build r fn (calls ++ [peers]) := by
  unfold build
  rw [List.foldl_append]
  rfl

/-- On a ring built by `New` and calls of `Add`, `Get` of a non-empty ring is
one of the peers that were added. -/
theorem Get_mem_flatten (r : Int) (fn : Option Hash) (calls : List (List String))
    (key : String) (hne : (build r fn calls).keys ≠ []) :
    Get (build r fn calls) key ∈ calls.flatten := by
  obtain ⟨h1, _⟩ := selected_spec (build r fn calls).keys (build_sorted r fn calls) hne
    (hashInt (build r fn calls).hash key)
  obtain ⟨q, hqS, _, hq⟩ := (Holds_build r fn calls).owner h1
  rw [Get_of_ne_nil _ _ hne, hq]
  exact hqS

/-- C19. On a ring built by `New` and calls of `Add`, with replica factor
`r >= 0`, a further call `Add(p1, ..., pk)` (peers may repeat or be present
already) leaves as hash array the ascending rearrangement of the old array
together with the values `hash(decimal(i) ++ p)` for each peer `p` of the call
and each `i` in `[0, r)`: the length grows by `k * r`, the array is sorted
ascending, and every value in it is a key of the map from hash to peer. -/
theorem Add_extends_sorted_array (r : Int) (fn : Option Hash) (calls : List (List String))
    (peers : List String) (hr : 0 ≤ r) :
    (Add (build r fn calls) peers).keys.Perm
      ((build r fn calls).keys ++ peers.flatMap (vnodes (build r fn calls).hash r)) ∧
    (Add (build r fn calls) peers).keys.Sorted (fun a b => a ≤ b) ∧
    ((Add (build r fn calls) peers).keys.length : Int) =
      ((build r fn calls).keys.length : Int) + (peers.length : Int) * r ∧
    ∀ x ∈ (Add (build r fn calls) peers).keys,
      ((Add (build r fn calls) peers).hashMap x).isSome = true := by
  have hrep : (build r fn calls).replicas = r := (Holds_build r fn calls).replicas_eq
  obtain ⟨_, _, hk⟩ := foldl_addKey_keys peers (build r fn calls)
  rw [hrep] at hk
  have hperm : (Add (build r fn calls) peers).keys.Perm
      ((build r fn calls).keys ++ peers.flatMap (vnodes (build r fn calls).hash r)) := by
    have hadd : (Add (build r fn calls) peers).keys =
        sortInts (peers.foldl addKey (build r fn calls)).keys := rfl
    rw [hadd, hk]
    exact sortInts_perm _
  refine ⟨hperm, Add_sorted _ peers, ?_, ?_⟩
  · rw [hperm.length_eq, List.length_append, flatMap_vnodes_length]
    push_cast
    rw [Int.toNat_of_nonneg hr]
  · intro x hx
    rw [build_snoc] at hx ⊢
    obtain ⟨q, _, _, hq⟩ := (Holds_build r fn (calls ++ [peers])).owner hx
    rw [hq]
    rfl

end consistenthash

namespace singleflight

/-- A call of `Do` for a key without a record runs `fn` once and returns what
`fn` returned; afterwards the map has no record for the key. -/
theorem Do_no_record {α σ : Type} (g : Group α) (key : String)
    (fn : σ → Option ((Option α × Option String) × σ)) (s : σ)
    (h : (g.m.getD (fun _ => none)) key = none) :
    Do g key fn s = (fn s).map (fun p => (p.1, g.after key, p.2)) := by
  unfold Do
  simp only
  rw [h]
  cases hf : fn s with
  | none => rfl
  | some p =>
    obtain ⟨⟨val, err⟩, s1⟩ := p
    have hm : (fun k => if k = key then none
          else if k = key then some ({ wg := 0, val := val, err := err } : call α)
          else if k = key then some ({ wg := 1, val := none, err := none } : call α)
          else g.m.getD (fun _ => none) k) =
        (fun k => if k = key then none else g.m.getD (fun _ => none) k) := by
      funext k
      by_cases hk : k = key
      · simp [hk]
      · simp [hk]
    simp only [Option.map_some', Group.after, hm]

end singleflight

namespace gcache

theorem cache_get_miss (c : cache) (key : String) (h : (c.get key).1 = none) :
    (c.get key).2 = c := by
  unfold cache.get at h ⊢
  cases hl : c.lru with
  | none => rfl
  | some l =>
    rw [hl] at h
    simp only at h ⊢
    rw [lru.Get_miss l key h]
    cases c
    simp only at hl
    rw [hl]

theorem Group.WF.no_record {g : Group} (h : g.WF) (key : String) :
    (g.loader.m.getD (fun _ => none)) key = none := by
  cases hm : g.loader.m with
  | none => rfl
  | some m => exact h.idle m hm key

theorem Get_empty_key (fuel : Nat) (g : Group) (t : List Event) :
    g.Get fuel t "" = some (({ b := [] }, some "key is required"), g, t) := by
  unfold Group.Get
  rw [if_pos rfl]

theorem Get_hit (fuel : Nat) (g : Group) (t : List Event) (key : String) (v : ByteView)
    (hk : key ≠ "") (hhit : (g.mainCache.get key).1 = some v) :
    g.Get fuel t key =
      some ((v, none), { g with mainCache := (g.mainCache.get key).2 }, t) := by
  unfold Group.Get
  rw [if_neg hk]
  cases hg : g.mainCache.get key with
  | mk a c =>
    rw [hg] at hhit
    simp only at hhit
    subst hhit
    rfl

theorem Get_miss_load (fuel : Nat) (g : Group) (t : List Event) (key : String)
    (hk : key ≠ "") (hmiss : (g.mainCache.get key).1 = none) :
    g.Get fuel t key = g.load fuel t key := by
  have h2 := cache_get_miss g.mainCache key hmiss
  unfold Group.Get
  rw [if_neg hk]
  cases hg : g.mainCache.get key with
  | mk a c =>
    rw [hg] at hmiss h2
    simp only at hmiss h2
    subst hmiss
    subst h2
    rfl

/-- Either some peer serves the key or none does. -/
theorem served_or_unserved (g : Group) (key : String) (t : List Event) :
    (∃ pk peer b, g.peers = some pk ∧ pk key = some peer ∧
      peer { Group := g.name, Key := key } = .ok b) ∨
    ∃ tp, Unserved g key t tp := by
  cases hp : g.peers with
  | none => exact Or.inr ⟨t, Or.inl ⟨hp, rfl⟩⟩
  | some pk =>
    cases hpk : pk key with
    | none => exact Or.inr ⟨t, Or.inr (Or.inl ⟨pk, hp, hpk, rfl⟩)⟩
    | some peer =>
      cases hres : peer { Group := g.name, Key := key } with
      | ok b => exact Or.inl ⟨pk, peer, b, rfl, hpk, hres⟩
      | error err => exact Or.inr ⟨_, Or.inr (Or.inr ⟨pk, peer, err, hp, hpk, hres, rfl⟩)⟩

theorem loadFn_served (fuel : Nat) (g : Group) (t : List Event) (key : String) (v0 : ByteView)
    {pk : PeerPicker} {peer : PeerGetter} {b : Bytes}
    (hp : g.peers = some pk) (hpk : pk key = some peer)
    (hok : peer { Group := g.name, Key := key } = .ok b) :
    Group.loadFn fuel key (g, t, v0) =
      some ((some { b := b }, none), (g, t ++ [Event.peer g.name key], { b := b })) := by
  simp only [Group.loadFn, hp, hpk, Group.getFromPeer, hok]

theorem loadFn_unserved (fuel : Nat) (g : Group) (t tp : List Event) (key : String)
    (h : Unserved g key t tp) :
    Group.loadFn fuel key (g, t, { b := [] }) = g.viaLoader fuel tp { b := [] } key := by
  rcases h with ⟨hp, rfl⟩ | ⟨pk, hp, hpk, rfl⟩ | ⟨pk, peer, err, hp, hpk, hres, rfl⟩
  · simp only [Group.loadFn, hp]
  · simp only [Group.loadFn, hp, hpk]
  · simp only [Group.loadFn, hp, hpk, Group.getFromPeer, hres]

end gcache

namespace gcache

theorem load_served (fuel : Nat) (g : Group) (t : List Event) (key : String)
    (hrec : (g.loader.m.getD (fun _ => none)) key = none)
    {pk : PeerPicker} {peer : PeerGetter} {b : Bytes}
    (hp : g.peers = some pk) (hpk : pk key = some peer)
    (hok : peer { Group := g.name, Key := key } = .ok b) :
    g.load fuel t key =
      some (({ b := b }, none), { g with loader := g.loader.after key },
        t ++ [Event.peer g.name key]) := by
  unfold Group.load
  rw [singleflight.Do_no_record _ _ _ _ hrec, loadFn_served fuel g t key _ hp hpk hok]
  rfl

theorem load_loader_error (fuel : Nat) (g : Group) (t tp : List Event) (key : String)
    (hrec : (g.loader.m.getD (fun _ => none)) key = none)
    (hun : Unserved g key t tp) {err : String} (hget : g.getter key = .error err) :
    g.load fuel t key =
      some (({ b := [] }, some err), { g with loader := g.loader.after key },
        tp ++ [Event.loader key]) := by
  unfold Group.load
  rw [singleflight.Do_no_record _ _ _ _ hrec, loadFn_unserved fuel g t tp key hun]
  simp only [Group.viaLoader, Group.getLocally, hget]
  rfl

theorem load_loader_ok (fuel : Nat) (g : Group) (t tp : List Event) (key : String)
    (hrec : (g.loader.m.getD (fun _ => none)) key = none)
    (hun : Unserved g key t tp) {b : Bytes} (hget : g.getter key = .ok b) :
    g.load fuel t key =
      (g.mainCache.add fuel key { b := b }).map (fun c =>
        (({ b := b }, none), { g with mainCache := c, loader := g.loader.after key },
          tp ++ [Event.loader key])) := by
  unfold Group.load
  rw [singleflight.Do_no_record _ _ _ _ hrec, loadFn_unserved fuel g t tp key hun]
  simp only [Group.viaLoader, Group.getLocally, hget, Group.populateCache, cloneBytes]
  cases hadd : g.mainCache.add fuel key { b := b } with
  | none => rfl
  | some c => rfl

theorem after_idle {α : Type} (g : singleflight.Group α) (key : String)
    (h : ∀ m, g.m = some m → ∀ k, m k = none) :
    ∀ m, (g.after key).m = some m → ∀ k, m k = none := by
  intro m hm k
  simp only [singleflight.Group.after, Option.some.injEq] at hm
  subst hm
  by_cases hk : k = key
  · simp [hk]
  · simp only [hk, if_false]
    cases hgm : g.m with
    | none => rfl
    | some m0 => exact h m0 hgm k

theorem cache_get_inv (c : cache) (key : String)
    (h : ∀ l, c.lru = some l → lru.Inv l ∧ l.maxBytes = c.cacheBytes) :
    (∀ l, (c.get key).2.lru = some l → lru.Inv l ∧ l.maxBytes = (c.get key).2.cacheBytes) := by
  intro l hl
  unfold cache.get at hl ⊢
  cases hc : c.lru with
  | none =>
    rw [hc] at hl
    simp only at hl
    rw [hc] at hl
    cases hl
  | some l0 =>
    rw [hc] at hl
    simp only at hl ⊢
    cases hl
    obtain ⟨hinv, hmax⟩ := h l0 hc
    refine ⟨lru.Inv_Get hinv key, ?_⟩
    rw [← hmax]
    unfold lru.Get
    split <;> rfl

theorem cache_add_inv (fuel : Nat) (c c1 : cache) (key : String) (value : ByteView)
    (h : ∀ l, c.lru = some l → lru.Inv l ∧ l.maxBytes = c.cacheBytes)
    (hadd : c.add fuel key value = some c1) :
    (∀ l, c1.lru = some l → lru.Inv l ∧ l.maxBytes = c1.cacheBytes) ∧
      c1.cacheBytes = c.cacheBytes := by
  unfold cache.add at hadd
  have hbase : lru.Inv (c.lru.getD (lru.New c.cacheBytes false)) ∧
      (c.lru.getD (lru.New c.cacheBytes false)).maxBytes = c.cacheBytes := by
    cases hc : c.lru with
    | none => exact ⟨lru.Inv_New _ _, rfl⟩
    | some l0 => exact h l0 hc
  cases hA : lru.Add fuel (c.lru.getD (lru.New c.cacheBytes false)) key value with
  | none => rw [hA] at hadd; cases hadd
  | some l1 =>
    rw [hA] at hadd
    simp only [Option.some.injEq] at hadd
    subst hadd
    refine ⟨?_, rfl⟩
    intro l hl
    simp only [Option.some.injEq] at hl
    subst hl
    refine ⟨lru.Inv_Add fuel hbase.1 key value hA, ?_⟩
    unfold lru.Add at hA
    rw [lru.maxBytes_evictLoop fuel hA, lru.maxBytes_store, hbase.2]

end gcache

namespace gcache

theorem WF_NewGroup (name : String) (cacheBytes : Int) (getter : Getter) :
    (NewGroup name cacheBytes getter).WF := by
  constructor
  · intro l hl
    simp [NewGroup] at hl
  · intro m hm
    simp [NewGroup] at hm

theorem WF_RegisterPeers {g g1 : Group} (peers : PeerPicker) (h : g.WF)
    (hreg : g.RegisterPeers peers = some g1) : g1.WF := by
  unfold Group.RegisterPeers at hreg
  cases hp : g.peers with
  | some _ => rw [hp] at hreg; cases hreg
  | none =>
    rw [hp] at hreg
    simp only [Option.some.injEq] at hreg
    subst hreg
    exact ⟨h.lru_inv, h.idle⟩

/-- A call of `Get` that returns keeps the group well formed. -/
theorem WF_Get {g g1 : Group} (h : g.WF) (fuel : Nat) (t t1 : List Event) (key : String)
    (r : ByteView × Option String) (hget : g.Get fuel t key = some (r, g1, t1)) : g1.WF := by
  by_cases hk : key = ""
  · subst hk
    rw [Get_empty_key] at hget
    simp only [Option.some.injEq, Prod.mk.injEq] at hget
    obtain ⟨_, hg, _⟩ := hget
    subst hg
    exact h
  · cases hc : (g.mainCache.get key).1 with
    | some v =>
      rw [Get_hit fuel g t key v hk hc] at hget
      simp only [Option.some.injEq, Prod.mk.injEq] at hget
      obtain ⟨_, hg, _⟩ := hget
      subst hg
      exact ⟨cache_get_inv g.mainCache key h.lru_inv, h.idle⟩
    | none =>
      rw [Get_miss_load fuel g t key hk hc] at hget
      have hrec := h.no_record key
      have hidle := after_idle g.loader key h.idle
      rcases served_or_unserved g key t with ⟨pk, peer, b, hp, hpk, hok⟩ | ⟨tp, hun⟩
      · rw [load_served fuel g t key hrec hp hpk hok] at hget
        simp only [Option.some.injEq, Prod.mk.injEq] at hget
        obtain ⟨_, hg, _⟩ := hget
        subst hg
        exact ⟨h.lru_inv, hidle⟩
      · cases hgt : g.getter key with
        | error err =>
          rw [load_loader_error fuel g t tp key hrec hun hgt] at hget
          simp only [Option.some.injEq, Prod.mk.injEq] at hget
          obtain ⟨_, hg, _⟩ := hget
          subst hg
          exact ⟨h.lru_inv, hidle⟩
        | ok b =>
          rw [load_loader_ok fuel g t tp key hrec hun hgt] at hget
          cases hadd : g.mainCache.add fuel key { b := b } with
          | none => rw [hadd] at hget; cases hget
          | some c =>
            rw [hadd] at hget
            simp only [Option.map_some', Option.some.injEq, Prod.mk.injEq] at hget
            obtain ⟨_, hg, _⟩ := hget
            subst hg
            exact ⟨(cache_add_inv fuel g.mainCache c key _ h.lru_inv hadd).1, hidle⟩

/-- Every reachable group is well formed. -/
theorem Group.Reachable.wf {g : Group} (h : g.Reachable) : g.WF := by
  induction h with
  | new name cacheBytes getter => exact WF_NewGroup name cacheBytes getter
  | registerPeers peers _ hreg ih => exact WF_RegisterPeers peers ih hreg
  | get fuel t t1 key r _ hget ih => exact WF_Get ih fuel t t1 key r hget

theorem loaderCalls_append_peer (t : List Event) (group key : String) :
    loaderCalls (t ++ [Event.peer group key]) = loaderCalls t := by
  simp [loaderCalls, List.filter_append]

theorem loaderCalls_append_loader (t : List Event) (key : String) :
    loaderCalls (t ++ [Event.loader key]) = loaderCalls t + 1 := by
  simp [loaderCalls, List.filter_append]

theorem peerCalls_append_peer (t : List Event) (group key : String) :
    peerCalls (t ++ [Event.peer group key]) = peerCalls t + 1 := by
  simp [peerCalls, List.filter_append]

theorem ByteView_Len_nonneg (v : ByteView) : 0 ≤ lru.Value.Len v := by
  show 0 ≤ v.Len
  unfold ByteView.Len
  omega

/-- The LRU that `add` of the wrapper works on is well formed and has the
capacity `cacheBytes`. -/
theorem cache_base_inv (c : cache)
    (h : ∀ l, c.lru = some l → lru.Inv l ∧ l.maxBytes = c.cacheBytes) :
    lru.Inv (c.lru.getD (lru.New c.cacheBytes false)) ∧
      (c.lru.getD (lru.New c.cacheBytes false)).maxBytes = c.cacheBytes ∧
      (c.lru.getD (lru.New c.cacheBytes false)).ll.length = c.len := by
  cases hc : c.lru with
  | none => exact ⟨lru.Inv_New _ _, rfl, by simp [cache.len, hc, lru.New]⟩
  | some l0 => exact ⟨(h l0 hc).1, (h l0 hc).2, by simp [cache.len, hc, lru.Len]⟩

/-- With a capacity that is not negative `add` of the wrapper returns. -/
theorem cache_add_returns (c : cache)
    (h : ∀ l, c.lru = some l → lru.Inv l ∧ l.maxBytes = c.cacheBytes)
    (hcap : 0 ≤ c.cacheBytes) (key : String) (value : ByteView) (fuel : Nat)
    (hfuel : c.len + 2 ≤ fuel) : ∃ c1, c.add fuel key value = some c1 := by
  obtain ⟨hinv, hmax, hlen⟩ := cache_base_inv c h
  obtain ⟨l1, hl1⟩ := lru.Add_returns hinv (by rw [hmax]; exact hcap) key value fuel
    (by rw [hlen]; exact hfuel)
  exact ⟨{ c with lru := some l1 }, by unfold cache.add; rw [hl1]⟩

/-- With a negative capacity `add` of the wrapper never returns. -/
theorem cache_add_negative (c : cache)
    (h : ∀ l, c.lru = some l → lru.Inv l ∧ l.maxBytes = c.cacheBytes)
    (hcap : c.cacheBytes < 0) (key : String) (value : ByteView) (fuel : Nat) :
    c.add fuel key value = none := by
  obtain ⟨hinv, hmax, _⟩ := cache_base_inv c h
  have : lru.Add fuel (c.lru.getD (lru.New c.cacheBytes false)) key value = none := by
    unfold lru.Add
    exact lru.evictLoop_negative ByteView_Len_nonneg fuel (lru.Inv_store hinv key value)
      (by rw [lru.maxBytes_store, hmax]; exact hcap)
  unfold cache.add
  rw [this]

/-- After `add` of an entry that fits, `get` of the wrapper hits with it. -/
theorem cache_get_after_add (c c1 : cache)
    (h : ∀ l, c.lru = some l → lru.Inv l ∧ l.maxBytes = c.cacheBytes)
    (key : String) (value : ByteView) (fuel : Nat)
    (hfit : c.cacheBytes = 0 ∨ (key.utf8ByteSize : Int) + value.Len ≤ c.cacheBytes)
    (hadd : c.add fuel key value = some c1) : (c1.get key).1 = some value := by
  obtain ⟨hinv, hmax, _⟩ := cache_base_inv c h
  unfold cache.add at hadd
  cases hA : lru.Add fuel (c.lru.getD (lru.New c.cacheBytes false)) key value with
  | none => rw [hA] at hadd; cases hadd
  | some l1 =>
    rw [hA] at hadd
    simp only [Option.some.injEq] at hadd
    subst hadd
    have := lru.Get_after_Add hinv key value fuel (by rw [hmax]; exact hfit) hA
    simp only [cache.get]
    exact this

end gcache

namespace gcache

/-- C7. Local hit after local population. If `Get key` on a reachable group
returned a value with a nil error after calling the loader, and the entry
fits (`cacheBytes = 0` or `len(key) + len(value) <= cacheBytes`), then the
next `Get key` returns the same value with a nil error and adds no event: it
calls neither the loader nor a peer, so the loader has run once in the two
calls. -/
theorem Get_hit_after_local_load (g : Group) (hr : g.Reachable) (fuel : Nat)
    (t : List Event) (key : String) (hk : key ≠ "") (v : ByteView) (g1 : Group)
    (t1 : List Event) (hget : g.Get fuel t key = some ((v, none), g1, t1))
    (hload : loaderCalls t1 = loaderCalls t + 1)
    (hfit : g.mainCache.cacheBytes = 0 ∨
      (key.utf8ByteSize : Int) + v.Len ≤ g.mainCache.cacheBytes)
    (fuel2 : Nat) :
    ∃ g2, g1.Get fuel2 t1 key = some ((v, none), g2, t1) ∧
      loaderCalls t1 = loaderCalls t + 1 := by
  have h := hr.wf
  cases hc : (g.mainCache.get key).1 with
  | some v0 =>
    rw [Get_hit fuel g t key v0 hk hc] at hget
    simp only [Option.some.injEq, Prod.mk.injEq] at hget
    obtain ⟨_, _, ht⟩ := hget
    subst ht
    omega
  | none =>
    rw [Get_miss_load fuel g t key hk hc] at hget
    have hrec := h.no_record key
    rcases served_or_unserved g key t with ⟨pk, peer, b, hp, hpk, hok⟩ | ⟨tp, hun⟩
    · rw [load_served fuel g t key hrec hp hpk hok] at hget
      simp only [Option.some.injEq, Prod.mk.injEq] at hget
      obtain ⟨_, _, ht⟩ := hget
      subst ht
      rw [loaderCalls_append_peer] at hload
      omega
    · cases hgt : g.getter key with
      | error err =>
        rw [load_loader_error fuel g t tp key hrec hun hgt] at hget
        simp only [Option.some.injEq, Prod.mk.injEq] at hget
        obtain ⟨⟨_, herr⟩, _, _⟩ := hget
        cases herr
      | ok b =>
        rw [load_loader_ok fuel g t tp key hrec hun hgt] at hget
        cases hadd : g.mainCache.add fuel key { b := b } with
        | none => rw [hadd] at hget; cases hget
        | some c =>
          rw [hadd] at hget
          simp only [Option.map_some', Option.some.injEq, Prod.mk.injEq] at hget
          obtain ⟨⟨hv, _⟩, hg, _⟩ := hget
          subst hv
          subst hg
          have hhit : (c.get key).1 = some { b := b } :=
            cache_get_after_add g.mainCache c h.lru_inv key _ fuel hfit hadd
          exact ⟨_, Get_hit fuel2 _ t1 key _ hk hhit, hload⟩

/-- C8 (as amended). Peer failure falls back to the loader. On a reachable
group with `cacheBytes >= 0` whose picker returns a peer whose `Get` fails,
for a non-empty key that misses the local cache and for which the loader
returns the bytes `b`, `Get key` (with fuel for the eviction loop) returns
`b` with a nil error, calls the peer and then the loader once each, and the
local cache is the result of adding `key -> b`; when the entry fits, the
cache holds it. -/
theorem Get_peer_failure_falls_back (g : Group) (hr : g.Reachable)
    (hcap : 0 ≤ g.mainCache.cacheBytes) (key : String) (hk : key ≠ "")
    (hmiss : (g.mainCache.get key).1 = none)
    (pk : PeerPicker) (peer : PeerGetter) (err : String) (b : Bytes)
    (hp : g.peers = some pk) (hpk : pk key = some peer)
    (hfail : peer { Group := g.name, Key := key } = .error err)
    (hload : g.getter key = .ok b)
    (fuel : Nat) (hfuel : g.mainCache.len + 2 ≤ fuel) (t : List Event) :
    ∃ c, g.mainCache.add fuel key { b := b } = some c ∧
      g.Get fuel t key =
        some (({ b := b }, none), { g with mainCache := c, loader := g.loader.after key },
          t ++ [Event.peer g.name key, Event.loader key]) ∧
      (g.mainCache.cacheBytes = 0 ∨
          (key.utf8ByteSize : Int) + (b.length : Int) ≤ g.mainCache.cacheBytes →
        (c.get key).1 = some { b := b }) := by
  have h := hr.wf
  obtain ⟨c, hadd⟩ := cache_add_returns g.mainCache h.lru_inv hcap key { b := b } fuel hfuel
  have hun : Unserved g key t (t ++ [Event.peer g.name key]) :=
    Or.inr (Or.inr ⟨pk, peer, err, hp, hpk, hfail, rfl⟩)
  refine ⟨c, hadd, ?_, ?_⟩
  · rw [Get_miss_load fuel g t key hk hmiss,
      load_loader_ok fuel g t _ key (h.no_record key) hun hload, hadd]
    simp
  · intro hfit
    exact cache_get_after_add g.mainCache c h.lru_inv key _ fuel hfit hadd

/-- C9. Peer results are not cached locally. On a reachable group whose
picker returns a peer for the key and whose peer `Get` succeeds with the bytes
`b`, for a non-empty key that misses the local cache, `Get key` returns `b`
with a nil error, its only event is the peer call (the loader is not called),
and the group's local cache is what it was before the call. -/
theorem Get_peer_result_not_cached (g : Group) (hr : g.Reachable) (key : String)
    (hk : key ≠ "") (hmiss : (g.mainCache.get key).1 = none)
    (pk : PeerPicker) (peer : PeerGetter) (b : Bytes)
    (hp : g.peers = some pk) (hpk : pk key = some peer)
    (hok : peer { Group := g.name, Key := key } = .ok b)
    (fuel : Nat) (t : List Event) :
    ∃ g1, g.Get fuel t key =
        some (({ b := b }, none), g1, t ++ [Event.peer g.name key]) ∧
      g1.mainCache = g.mainCache ∧
      loaderCalls (t ++ [Event.peer g.name key]) = loaderCalls t := by
  refine ⟨{ g with loader := g.loader.after key }, ?_, rfl, loaderCalls_append_peer t _ _⟩
  rw [Get_miss_load fuel g t key hk hmiss,
    load_served fuel g t key (hr.wf.no_record key) hp hpk hok]

/-- C10 (as amended). `Get` with the empty key returns the zero `ByteView`
and the error whose message is "key is required", and changes nothing. -/
theorem Get_empty_key_error (fuel : Nat) (g : Group) (t : List Event) :
    g.Get fuel t "" = some (({ b := [] }, some "key is required"), g, t) := by
  unfold Group.Get
  rw [if_pos rfl]

end gcache

namespace singleflight

theorem after_no_record {α : Type} (g : Group α) (key : String) :
    ((g.after key).m.getD (fun _ => none)) key = none := by
  simp [Group.after]

theorem DoSeq_eq_runSeq {α σ : Type} (key : String)
    (fn : σ → Option ((Option α × Option String) × σ)) (n : Nat) (g : Group α) (s : σ)
    (h : (g.m.getD (fun _ => none)) key = none) :
    (DoSeq key fn n g s).map (fun x => (x.1, x.2.2)) = runSeq fn n s := by
  induction n generalizing g s with
  | zero => rfl
  | succ k ih =>
    unfold DoSeq runSeq
    rw [Do_no_record g key fn s h]
    cases hf : fn s with
    | none => rfl
    | some p =>
      obtain ⟨r, s1⟩ := p
      simp only [Option.map_some']
      have := ih (g.after key) s1 (after_no_record g key)
      cases hd : DoSeq key fn k (g.after key) s1 with
      | none =>
        rw [hd] at this
        simp only [Option.map_none'] at this
        rw [← this]
        rfl
      | some q =>
        obtain ⟨rs, g2, s2⟩ := q
        rw [hd] at this
        simp only [Option.map_some'] at this
        rw [← this]
        rfl

/-- C13. Single-flight is a coalescer, not a memoiser. On a coordinator whose
map has no record for `key`, `Do(key, fn)` runs `fn` once (the closure state
after the call is the state after one run of `fn`), returns exactly what `fn`
returned, and leaves a map without a record for `key` and with the records of
the other keys untouched; a call in which `fn` does not return does not
return either. Hence any number of calls made one after the other run `fn`
that many times and return its results in order. -/
theorem Do_runs_fn_every_time {α σ : Type} (g : Group α) (key : String)
    (fn : σ → Option ((Option α × Option String) × σ)) (s : σ)
    (h : (g.m.getD (fun _ => none)) key = none) :
    (∀ r s1, fn s = some (r, s1) →
      ∃ m, Do g key fn s = some (r, { m := some m }, s1) ∧ m key = none ∧
        ∀ k, k ≠ key → m k = (g.m.getD (fun _ => none)) k) ∧
    (fn s = none → Do g key fn s = none) ∧
    (∀ n, (DoSeq key fn n g s).map (fun x => (x.1, x.2.2)) = runSeq fn n s) := by
  refine ⟨?_, ?_, fun n => DoSeq_eq_runSeq key fn n g s h⟩
  · intro r s1 hf
    refine ⟨fun k => if k = key then none else (g.m.getD (fun _ => none)) k, ?_, by simp, ?_⟩
    · rw [Do_no_record g key fn s h, hf]
      rfl
    · intro k hk
      simp [hk]
  · intro hf
    rw [Do_no_record g key fn s h, hf]
    rfl

end singleflight

namespace gcache

/-- C11. Loader errors surface verbatim and cache nothing. On a reachable
group, for a non-empty key that misses the local cache, when no peer serves
the key (no picker installed, the picker finds no peer, or the peer's `Get`
fails) and the loader returns the error `err`, `Get key` returns exactly
`err` (with the zero `ByteView`), after one loader call, and the local cache
is what it was. -/
theorem Get_loader_error_verbatim (g : Group) (hr : g.Reachable) (key : String)
    (hk : key ≠ "") (hmiss : (g.mainCache.get key).1 = none) (t tp : List Event)
    (hun : Unserved g key t tp) (err : String) (hget : g.getter key = .error err)
    (fuel : Nat) :
    ∃ g1, g.Get fuel t key = some (({ b := [] }, some err), g1, tp ++ [Event.loader key]) ∧
      g1.mainCache = g.mainCache ∧
      loaderCalls (tp ++ [Event.loader key]) = loaderCalls tp + 1 := by
  refine ⟨{ g with loader := g.loader.after key }, ?_, rfl, loaderCalls_append_loader tp key⟩
  rw [Get_miss_load fuel g t key hk hmiss,
    load_loader_error fuel g t tp key (hr.wf.no_record key) hun hget]

theorem getters_fold (basePath : String) (peers : List String)
    (init : String → Option httpGetter) (k : String) :
    (peers.foldl
        (fun m peer => fun k => if k = peer then some { baseURL := peer ++ basePath } else m k)
        init) k =
      if k ∈ peers then some { baseURL := k ++ basePath } else init k := by
  induction peers generalizing init with
  | nil => simp
  | cons p t ih =>
    rw [List.foldl_cons, ih]
    by_cases hkt : k ∈ t
    · simp [hkt]
    · by_cases hkp : k = p
      · simp [hkp]
      · simp [hkt, hkp]

/-- C14. Ring self-exclusion. After `Set(peers...)` on a pool with identity
`self`, `PickPeer(K)` returns `(nil, false)` when the ring built from the
peers resolves `K` to `self` or to the empty string; otherwise the resolved
peer `p` is one of the peers and `PickPeer(K)` returns `(g, true)` with `g`
the getter registered for `p`, whose `baseURL` is `p + basePath`. -/
theorem PickPeer_excludes_self (p : HTTPPool) (peers : List String) (key : String) :
    ((consistenthash.Get (consistenthash.Add (consistenthash.New defaultReplicas none) peers)
          key = "" ∨
        consistenthash.Get (consistenthash.Add (consistenthash.New defaultReplicas none) peers)
          key = p.self) →
      (p.Set peers).PickPeer key = some (none, false)) ∧
    (¬ (consistenthash.Get (consistenthash.Add (consistenthash.New defaultReplicas none) peers)
          key = "" ∨
        consistenthash.Get (consistenthash.Add (consistenthash.New defaultReplicas none) peers)
          key = p.self) →
      consistenthash.Get (consistenthash.Add (consistenthash.New defaultReplicas none) peers)
          key ∈ peers ∧
      (p.Set peers).PickPeer key =
        some (some { baseURL := (consistenthash.Get
          (consistenthash.Add (consistenthash.New defaultReplicas none) peers) key) ++
            p.basePath }, true)) := by
  have hbuild : consistenthash.Add (consistenthash.New defaultReplicas none) peers =
      consistenthash.build defaultReplicas none [peers] := rfl
  generalize hres :
    consistenthash.Get (consistenthash.Add (consistenthash.New defaultReplicas none) peers) key
      = resolved
  have hpick : (p.Set peers).PickPeer key =
      if resolved ≠ "" ∧ resolved ≠ p.self then some ((p.Set peers).httpGetters resolved, true)
      else some (none, false) := by
    simp only [HTTPPool.PickPeer, HTTPPool.Set, hres]
  constructor
  · intro hor
    rw [hpick, if_neg]
    rintro ⟨h1, h2⟩
    rcases hor with h | h
    · exact h1 h
    · exact h2 h
  · intro hnot
    have h1 : resolved ≠ "" := fun h => hnot (Or.inl h)
    have h2 : resolved ≠ p.self := fun h => hnot (Or.inr h)
    have hmem : resolved ∈ peers := by
      rw [hbuild] at hres
      by_cases hnil : (consistenthash.build defaultReplicas none [peers]).keys = []
      · rw [consistenthash.Get_of_nil _ _ hnil] at hres
        exact absurd hres.symm h1
      · have := consistenthash.Get_mem_flatten defaultReplicas none [peers] key hnil
        rw [hres] at this
        simpa using this
    refine ⟨hmem, ?_⟩
    rw [hpick, if_pos ⟨h1, h2⟩]
    simp only [HTTPPool.Set]
    rw [getters_fold, if_pos hmem]

end gcache

namespace lru

/-- The scenario cache is a reachable state of a cache of capacity 8. -/
theorem scenarioCache_reachable : Reachable 8 scenarioCache :=
  Reachable.add 3 "k2" "v2"
    (Reachable.add 2 "k1" "v1" (Reachable.new false)
      (rfl : Add 2 (New 8 false) "k1" "v1" = some ((Add 2 (New 8 false) "k1" "v1").getD (New 8 false))))
    rfl

/-- C1 at the scenario cache: adding `k3` returns and leaves at most 8 bytes. -/
theorem Add_nbytes_le_capacity_witness :
    (0 : Int) < 8 ∧ scenarioCache.ll.length + 2 ≤ 4 ∧
      ∃ c1, Add 4 scenarioCache "k3" "v3" = some c1 ∧ c1.nbytes ≤ 8 :=
  ⟨by decide, by decide,
    Add_nbytes_le_capacity scenarioCache_reachable (by decide) "k3" "v3" 4 (by decide)⟩

/-- C2 at the scenario cache: after adding `k3` the list is `k3, k2`, so `k1`
misses and `k2`, `k3` hit. -/
theorem Add_strict_lru_witness :
    (∃ c1 n, Add 4 scenarioCache "k3" "v3" = some c1 ∧
        entries c1 = (touched (entries scenarioCache) "k3" "v3").take n ∧
        listBytes ((touched (entries scenarioCache) "k3" "v3").take n) ≤ 8 ∧
        ∀ m, n < m → m ≤ (touched (entries scenarioCache) "k3" "v3").length →
          8 < listBytes ((touched (entries scenarioCache) "k3" "v3").take m)) ∧
      (Add 4 scenarioCache "k3" "v3").map entries = some [("k3", "v3"), ("k2", "v2")] ∧
      (Add 4 scenarioCache "k3" "v3").map (fun c => (Get c "k1").1) = some none ∧
      (Add 4 scenarioCache "k3" "v3").map (fun c => (Get c "k2").1) = some (some "v2") ∧
      (Add 4 scenarioCache "k3" "v3").map (fun c => (Get c "k3").1) = some (some "v3") :=
  ⟨(Add_strict_lru scenarioCache_reachable "k3" "v3" 4 (by decide)).2 (by decide),
    by decide, by decide, by decide, by decide⟩

end lru

namespace consistenthash

/-- C3 on the ring of `TestHashing`: three replicas, the integer-parsing
hash, `Add("6", "4", "2")`. -/
theorem Get_least_hash_at_least_witness :
    (build 3 (some atoiHash) [["6", "4", "2"]]).keys ≠ [] ∧
    (∃ x ∈ (build 3 (some atoiHash) [["6", "4", "2"]]).keys,
      (build 3 (some atoiHash) [["6", "4", "2"]]).hashMap x =
        some (Get (build 3 (some atoiHash) [["6", "4", "2"]]) "27") ∧
      ((hashInt (build 3 (some atoiHash) [["6", "4", "2"]]).hash "27" ≤ x ∧
          ∀ y ∈ (build 3 (some atoiHash) [["6", "4", "2"]]).keys,
            hashInt (build 3 (some atoiHash) [["6", "4", "2"]]).hash "27" ≤ y → x ≤ y) ∨
        ((∀ y ∈ (build 3 (some atoiHash) [["6", "4", "2"]]).keys,
            y < hashInt (build 3 (some atoiHash) [["6", "4", "2"]]).hash "27") ∧
          ∀ y ∈ (build 3 (some atoiHash) [["6", "4", "2"]]).keys, x ≤ y))) ∧
    (build 3 (some atoiHash) [["6", "4", "2"]]).keys = [2, 4, 6, 12, 14, 16, 22, 24, 26] ∧
    Get (build 3 (some atoiHash) [["6", "4", "2"]]) "2" = "2" ∧
    Get (build 3 (some atoiHash) [["6", "4", "2"]]) "11" = "2" ∧
    Get (build 3 (some atoiHash) [["6", "4", "2"]]) "23" = "4" ∧
    Get (build 3 (some atoiHash) [["6", "4", "2"]]) "27" = "2" :=
  ⟨by decide, Get_least_hash_at_least 3 (some atoiHash) [["6", "4", "2"]] "27" (by decide),
    by decide, by decide, by decide, by decide, by decide⟩

/-- C4 (as amended) on the peers of `TestHashing`: one call in the order
6, 4, 2 against two calls in the order 2, 4, 6. -/
theorem Get_order_independent_witness :
    ([["6", "4", "2"]] : List (List String)).flatten.Perm
        ([["2"], ["4", "6"]] : List (List String)).flatten ∧
    CollisionFree ((some atoiHash).getD ChecksumIEEE) 3
        ([["6", "4", "2"]] : List (List String)).flatten ∧
    Get (build 3 (some atoiHash) [["6", "4", "2"]]) "27" =
      Get (build 3 (some atoiHash) [["2"], ["4", "6"]]) "27" :=
  ⟨by decide, by decide,
    Get_order_independent 3 (some atoiHash) [["6", "4", "2"]] [["2"], ["4", "6"]]
      (by decide) (by decide) "27"⟩

/-- C5 on the ring of `TestHashing`: after `Add("8")` the keys 2, 11 and 23
keep their owners and 27 moves from peer 2 to peer 8. -/
theorem Get_after_Add_old_or_new_witness :
    (Get (Add (build 3 (some atoiHash) [["6", "4", "2"]]) ["8"]) "27" =
        Get (build 3 (some atoiHash) [["6", "4", "2"]]) "27" ∨
      Get (Add (build 3 (some atoiHash) [["6", "4", "2"]]) ["8"]) "27" = "8") ∧
    Get (Add (build 3 (some atoiHash) [["6", "4", "2"]]) ["8"]) "2" = "2" ∧
    Get (Add (build 3 (some atoiHash) [["6", "4", "2"]]) ["8"]) "11" = "2" ∧
    Get (Add (build 3 (some atoiHash) [["6", "4", "2"]]) ["8"]) "23" = "4" ∧
    Get (build 3 (some atoiHash) [["6", "4", "2"]]) "27" = "2" ∧
    Get (Add (build 3 (some atoiHash) [["6", "4", "2"]]) ["8"]) "27" = "8" :=
  ⟨Get_after_Add_old_or_new 3 (some atoiHash) [["6", "4", "2"]] "8" "27",
    by decide, by decide, by decide, by decide, by decide⟩

end consistenthash

namespace gcache

theorem localGroup_reachable (cacheBytes : Int) : (localGroup cacheBytes).Reachable :=
  Group.Reachable.new "scores" cacheBytes scenarioGetter

theorem peerGroup_reachable (cacheBytes : Int) (peer : PeerGetter) :
    (peerGroup cacheBytes peer).Reachable :=
  Group.Reachable.registerPeers (fun _ => some peer) (localGroup_reachable cacheBytes) rfl

/-- C7 on the group of capacity 8: the first `Get("k1")` calls the loader, the
second returns the same bytes and adds no event. -/
theorem Get_hit_after_local_load_witness :
    (localGroup 8).Get 2 [] "k1" =
        some (({ b := [118, 49] }, none), loadedGroup, [Event.loader "k1"]) ∧
      ∃ g2, loadedGroup.Get 0 [Event.loader "k1"] "k1" =
          some (({ b := [118, 49] }, none), g2, [Event.loader "k1"]) ∧
        loaderCalls [Event.loader "k1"] = loaderCalls [] + 1 :=
  ⟨rfl,
    Get_hit_after_local_load (localGroup 8) (localGroup_reachable 8) 2 [] "k1" (by decide)
      { b := [118, 49] } loadedGroup [Event.loader "k1"] rfl (by decide)
      (Or.inr (by decide)) 0⟩

/-- C8 (as amended) on the group of capacity 8 with a peer that is down. -/
theorem Get_peer_failure_falls_back_witness :
    ∃ c, (peerGroup 8 downPeer).mainCache.add 2 "k1" { b := [118, 49] } = some c ∧
      (peerGroup 8 downPeer).Get 2 [] "k1" =
        some (({ b := [118, 49] }, none),
          { peerGroup 8 downPeer with
            mainCache := c, loader := (peerGroup 8 downPeer).loader.after "k1" },
          [] ++ [Event.peer (peerGroup 8 downPeer).name "k1", Event.loader "k1"]) ∧
      ((peerGroup 8 downPeer).mainCache.cacheBytes = 0 ∨
          (("k1" : String).utf8ByteSize : Int) + (([118, 49] : Bytes).length : Int) ≤
            (peerGroup 8 downPeer).mainCache.cacheBytes →
        (c.get "k1").1 = some { b := [118, 49] }) :=
  Get_peer_failure_falls_back (peerGroup 8 downPeer) (peerGroup_reachable 8 downPeer)
    (by decide) "k1" (by decide) rfl (fun _ => some downPeer) downPeer "peer down" [118, 49]
    rfl rfl rfl rfl 2 (by decide) []

/-- C8 (as stated) fails on a group with a negative `cacheBytes`: the peer
fails, the loader returns its bytes, and then `Add` of the LRU engine never
leaves its eviction loop, so `Get` returns for no amount of fuel. -/
theorem Get_never_returns_negative_capacity :
    (peerGroup (-1) downPeer).peers.isSome = true ∧
    downPeer { Group := (peerGroup (-1) downPeer).name, Key := "k1" } = .error "peer down" ∧
    ((peerGroup (-1) downPeer).mainCache.get "k1").1 = none ∧
    (peerGroup (-1) downPeer).getter "k1" = .ok [118, 49] ∧
    ¬ ∃ fuel r, (peerGroup (-1) downPeer).Get fuel [] "k1" = some r := by
  refine ⟨rfl, rfl, rfl, rfl, ?_⟩
  rintro ⟨fuel, r, hr⟩
  have h := (peerGroup_reachable (-1) downPeer).wf
  have hun : Unserved (peerGroup (-1) downPeer) "k1" []
      ([] ++ [Event.peer (peerGroup (-1) downPeer).name "k1"]) :=
    Or.inr (Or.inr ⟨fun _ => some downPeer, downPeer, "peer down", rfl, rfl, rfl, rfl⟩)
  rw [Get_miss_load fuel (peerGroup (-1) downPeer) [] "k1" (by decide) rfl,
    load_loader_ok fuel (peerGroup (-1) downPeer) [] _ "k1" (h.no_record "k1") hun
      (b := [118, 49]) rfl,
    cache_add_negative _ h.lru_inv (by decide) "k1" _ fuel] at hr
  cases hr

/-- C9 on the group of capacity 8 with a peer that answers. -/
theorem Get_peer_result_not_cached_witness :
    ∃ g1, (peerGroup 8 upPeer).Get 2 [] "k1" =
        some (({ b := [112] }, none), g1, [] ++ [Event.peer (peerGroup 8 upPeer).name "k1"]) ∧
      g1.mainCache = (peerGroup 8 upPeer).mainCache ∧
      loaderCalls ([] ++ [Event.peer (peerGroup 8 upPeer).name "k1"]) = loaderCalls [] :=
  Get_peer_result_not_cached (peerGroup 8 upPeer) (peerGroup_reachable 8 upPeer) "k1"
    (by decide) rfl (fun _ => some upPeer) upPeer [112] rfl rfl rfl 2 []

/-- C10 (as stated) fails: the message of the error for the empty key is
"key is required", not "key required". -/
theorem Get_empty_key_message :
    ((localGroup 8).Get 2 [] "").map (fun r => r.1.2) = some (some "key is required") ∧
      ((localGroup 8).Get 2 [] "").map (fun r => r.1.2) ≠ some (some "key required") := by
  constructor
  · rfl
  · decide

end gcache

namespace lru

theorem callbackCache_reachable : Reachable 8 callbackCache :=
  Reachable.add 2 "k1" "v1" (Reachable.new true) rfl

theorem String_Len_nonneg (v : String) : 0 ≤ Value.Len v := by
  show (0 : Int) ≤ (v.utf8ByteSize : Int)
  omega

/-- C15 at the scenario cache: two keys are mapped and the list has two entries. -/
theorem cache_keys_match_list_witness :
    (scenarioCache.ll.map (fun e => e.Value.key)).Nodup ∧
    Set.ncard {k | (scenarioCache.cache k).isSome = true} = Len scenarioCache ∧
    Len scenarioCache = 2 ∧
    scenarioCache.ll.map (fun e => e.Value.key) = ["k2", "k1"] :=
  ⟨(cache_keys_match_list scenarioCache_reachable).2.1,
    (cache_keys_match_list scenarioCache_reachable).2.2.2, by decide, by decide⟩

/-- C16 at the scenario cache: the byte count is the sum over the two entries, 8. -/
theorem nbytes_is_sum_of_entries_witness :
    scenarioCache.nbytes = listBytes (entries scenarioCache) ∧
    listBytes (entries scenarioCache) = 8 ∧
    (New 8 false : Cache String).nbytes = 0 :=
  ⟨(nbytes_is_sum_of_entries scenarioCache_reachable).1, by decide, by decide⟩

/-- C17 at the scenario cache: `Get("k1")` hits and moves `k1` in front of
`k2`; `Get("k3")` misses and changes nothing. -/
theorem Get_hit_or_miss_witness :
    ((Get scenarioCache "k1").1 = some "v1" ↔ ("k1", "v1") ∈ entries scenarioCache) ∧
    (Get scenarioCache "k1").1 = some "v1" ∧
    entries (Get scenarioCache "k1").2 = [("k1", "v1"), ("k2", "v2")] ∧
    ((Get scenarioCache "k3").1 = none → (Get scenarioCache "k3").2 = scenarioCache) ∧
    (Get scenarioCache "k3").1 = none :=
  ⟨(Get_hit_or_miss scenarioCache_reachable "k1").1 "v1", by decide, by decide,
    (Get_hit_or_miss scenarioCache_reachable "k3").2.2.2, by decide⟩

/-- C18 at the cache with a callback that holds `k1`: the entry is removed,
the byte count falls from 4 to 0 and the callback is called with `k1`, `v1`. -/
theorem RemoveOldest_removes_back_witness :
    callbackCache.ll = [] ++ [{ id := 0, Value := { key := "k1", value := "v1" } }] ∧
    ((RemoveOldest callbackCache).ll = [] ∧
      (RemoveOldest callbackCache).cache "k1" = none ∧
      (∀ k, k ≠ "k1" → (RemoveOldest callbackCache).cache k = callbackCache.cache k) ∧
      (RemoveOldest callbackCache).nbytes =
        callbackCache.nbytes - entryBytes ({ key := "k1", value := "v1" } : entry String) ∧
      (callbackCache.OnEvicted = true →
        (RemoveOldest callbackCache).evictions = callbackCache.evictions ++ [("k1", "v1")]) ∧
      (callbackCache.OnEvicted = false →
        (RemoveOldest callbackCache).evictions = callbackCache.evictions) ∧
      (RemoveOldest callbackCache).maxBytes = callbackCache.maxBytes) ∧
    (RemoveOldest callbackCache).evictions = [("k1", "v1")] ∧
    (RemoveOldest callbackCache).nbytes = 0 :=
  ⟨rfl,
    (RemoveOldest_removes_back callbackCache_reachable).2 []
      { id := 0, Value := { key := "k1", value := "v1" } } rfl,
    by decide, by decide⟩

/-- C20 at an empty cache of capacity 8, where `Add` returns, and at an empty
cache of capacity -1, where it returns for no fuel. -/
theorem Add_terminates_iff_witness :
    (∀ fuel, (New 8 false : Cache String).ll.length + 2 ≤ fuel →
      ∃ c1, Add fuel (New 8 false : Cache String) "k1" "v1" = some c1) ∧
    (∀ fuel, Add fuel (New (-1) false : Cache String) "k1" "v1" = none) ∧
    ¬ ∃ fuel c1, Add fuel (New (-1) false : Cache String) "k1" "v1" = some c1 :=
  ⟨(Add_terminates_iff String_Len_nonneg (Inv_New 8 false) "k1" "v1").1 (by decide),
    (Add_terminates_iff String_Len_nonneg (Inv_New (-1) false) "k1" "v1").2.1 (by decide),
    fun h =>
      absurd ((Add_terminates_iff String_Len_nonneg (Inv_New (-1) false) "k1" "v1").2.2.1 h)
        (by decide)⟩

end lru

namespace consistenthash

/-- C19 on the ring of `TestHashing`: `Add("8")` with three replicas adds the
hashes 8, 18 and 28. -/
theorem Add_extends_sorted_array_witness :
    (0 : Int) ≤ 3 ∧
    ((Add (build 3 (some atoiHash) [["6", "4", "2"]]) ["8"]).keys.Perm
        ((build 3 (some atoiHash) [["6", "4", "2"]]).keys ++
          (["8"] : List String).flatMap
            (vnodes (build 3 (some atoiHash) [["6", "4", "2"]]).hash 3)) ∧
      (Add (build 3 (some atoiHash) [["6", "4", "2"]]) ["8"]).keys.Sorted (fun a b => a ≤ b) ∧
      ((Add (build 3 (some atoiHash) [["6", "4", "2"]]) ["8"]).keys.length : Int) =
        ((build 3 (some atoiHash) [["6", "4", "2"]]).keys.length : Int) +
          ((["8"] : List String).length : Int) * 3 ∧
      ∀ x ∈ (Add (build 3 (some atoiHash) [["6", "4", "2"]]) ["8"]).keys,
        ((Add (build 3 (some atoiHash) [["6", "4", "2"]]) ["8"]).hashMap x).isSome = true) ∧
    (Add (build 3 (some atoiHash) [["6", "4", "2"]]) ["8"]).keys =
      [2, 4, 6, 8, 12, 14, 16, 18, 22, 24, 26, 28] :=
  ⟨by decide, Add_extends_sorted_array 3 (some atoiHash) [["6", "4", "2"]] ["8"] (by decide),
    by decide⟩

end consistenthash

namespace singleflight

/-- C13 with a counting function: three calls in a row run it three times
and return the counts 1, 2 and 3. -/
theorem Do_runs_fn_every_time_witness :
    (({ m := none } : Group Nat).m.getD (fun _ => none)) "k" = none ∧
    (DoSeq "k" countingFn 3 { m := none } 0).map (fun x => (x.1, x.2.2)) =
      runSeq countingFn 3 0 ∧
    runSeq countingFn 3 0 = some ([(some 1, none), (some 2, none), (some 3, none)], 3) :=
  ⟨rfl, (Do_runs_fn_every_time { m := none } "k" countingFn 0 rfl).2.2 3, by decide⟩

end singleflight

namespace gcache

theorem failingGroup_reachable (cacheBytes : Int) : (failingGroup cacheBytes).Reachable :=
  Group.Reachable.new "scores" cacheBytes failingGetter

/-- C11 on the group with the failing loader and no picker: `Get("k1")`
returns the loader's error and the cache stays as it was. -/
theorem Get_loader_error_verbatim_witness :
    ∃ g1, (failingGroup 8).Get 2 [] "k1" =
        some (({ b := [] }, some "no such key"), g1, [] ++ [Event.loader "k1"]) ∧
      g1.mainCache = (failingGroup 8).mainCache ∧
      loaderCalls ([] ++ [Event.loader "k1"]) = loaderCalls [] + 1 :=
  Get_loader_error_verbatim (failingGroup 8) (failingGroup_reachable 8) "k1" (by decide) rfl
    [] [] (Or.inl ⟨rfl, rfl⟩) "no such key" rfl 2

end gcache
